import Mathlib

/-!
Verification of the FindDupes repository (duplicate_file_finder.py,
duplicate_finder.py, duplicate_file_cleaner.py) against its specification.

The Python sources are shallowly embedded: a file is modelled as a record of
its path (the tuple of components that `pathlib.PurePath.parts` exposes), its
byte content (a list of naturals) and its modification time (an integer number
of seconds).  Filesystem reads performed by the Python code are modelled by
carrying the content inside the record; a file that would raise `OSError` is
simply absent from the modelled tree.  The external 64-bit xxhash used by
duplicate_finder.py is modelled as an ideal collision-free fingerprint,
represented by the byte sequence it fingerprints.  Concurrency
(`ThreadPoolExecutor` / `as_completed`) is modelled by the sequential
submission order, which is one admissible completion order.

The file is organised as: all definitions (the embedding), then all theorems.
-/

namespace FindDupes

/-! ## Basic data model -/

/-- A filesystem path, as the tuple of components of `pathlib.PurePath.parts`. -/
structure FPath where
  parts : List String
deriving DecidableEq, Repr

/-- A regular file visible to the scan: path, byte content, mtime (seconds). -/
structure SFile where
  path : FPath
  content : List Nat
  mtime : Int
deriving DecidableEq, Repr

/-- `PurePath.name`: the final path component (empty for an empty path). -/
def FPath.name (p : FPath) : String :=
  p.parts.getLastD ""

/-- `PurePath.parent`: the path with the final component removed. -/
def FPath.parent (p : FPath) : FPath :=
  ⟨p.parts.dropLast⟩

/-! ## Grouping a list by a key, preserving Python dict insertion order

`defaultdict(list)` grouping in the sources produces keys in first-occurrence
order, each bucket holding its members in scan order.  `groupByKey` builds the
same association list: the bucket of key `k` is exactly the sublist of elements
whose key is `k`. -/

/-- The keys of a list in first-occurrence order (Python dict key order). -/
def firstKeys {κ : Type} [DecidableEq κ] : List κ → List κ
  | [] => []
  | k :: ks => k :: (firstKeys ks).filter (fun k' => k' != k)

/-- Group a list by a key function, buckets in Python dict insertion order. -/
def groupByKey {α κ : Type} [DecidableEq κ] (f : α → κ) (l : List α) :
    List (κ × List α) :=
  (firstKeys (l.map f)).map (fun k => (k, l.filter (fun x => f x == k)))

/-- All pairs `(l[i], l[j])` with `i < j`, in `itertools.combinations` order. -/
def combPairs {α : Type} : List α → List (α × α)
  | [] => []
  | x :: xs => xs.map (fun y => (x, y)) ++ combPairs xs

/-! ## A stable insertion sort, modelling Python `list.sort()` / `sorted` -/

/-- Insert `x` into `l` stably with respect to the order `le`. -/
def insertS {α : Type} (le : α → α → Bool) (x : α) : List α → List α
  | [] => [x]
  | y :: ys => if le x y then x :: y :: ys else y :: insertS le x ys

/-- Stable insertion sort; a correct model of Python's stable `sort()`. -/
def insSort {α : Type} (le : α → α → Bool) : List α → List α
  | [] => []
  | x :: xs => insertS le x (insSort le xs)

/-! ## Lexicographic comparison of paths

CPython's `PurePath` ordering compares the tuples of parts lexicographically;
on POSIX the parts are compared as plain strings. -/

/-- Strict `<` on strings as character lists: code-point lexicographic, the
comparison Python uses on `str`. -/
def strLtB : List Char → List Char → Bool
  | _, [] => false
  | [], _ :: _ => true
  | c :: cs, d :: ds => if c < d then true else if c == d then strLtB cs ds else false

/-- Lexicographic `≤` on part lists, mirroring Python tuple comparison. -/
def lexLe : List String → List String → Bool
  | [], _ => true
  | _ :: _, [] => false
  | a :: as, b :: bs =>
    if strLtB a.data b.data then true else if a == b then lexLe as bs else false

/-! ## Substring scanning (model of the two `re.search` patterns)

`duplicate_file_finder.get_filename_score` uses
`re.search(r"\(copy\)|[-_ ]copy", filename)` and `re.search(r"\(\d+\)",
filename)`.  Both patterns are pure substring conditions; they are embedded as
executable scanners over the character list of the (lowercased) filename. -/

/-- `leadsWith p l`: `l` starts with `p` (list prefix test). -/
def leadsWith : List Char → List Char → Bool
  | [], _ => true
  | _ :: _, [] => false
  | a :: as, b :: bs => a == b && leadsWith as bs

/-- `hasSub sub l`: `sub` occurs contiguously inside `l`. -/
def hasSub (sub : List Char) : List Char → Bool
  | [] => sub.isEmpty
  | c :: rest => leadsWith sub (c :: rest) || hasSub sub rest

/-- After `(` and at least one digit: accept on `)`, keep scanning on digits. -/
def digitsClose : List Char → Bool
  | [] => false
  | c :: rest => if c == ')' then true else if c.isDigit then digitsClose rest else false

/-- After `(`: at least one digit followed (possibly after more digits) by `)`. -/
def afterParen : List Char → Bool
  | [] => false
  | d :: rest => d.isDigit && digitsClose rest

/-- Scanner for the regex `\(\d+\)`: a parenthesised number occurs in `l`. -/
def parenNum : List Char → Bool
  | [] => false
  | c :: rest => (c == '(' && afterParen rest) || parenNum rest

/-- Declarative reading of "contains the substring `sub`". -/
def HasSubstr (sub l : List Char) : Prop :=
  ∃ a t, l = a ++ sub ++ t

/-- Declarative reading of the regex `\(\d+\)`: `l` contains a parenthesised
nonempty run of digits. -/
def HasParenNumber (l : List Char) : Prop :=
  ∃ a ds t, l = a ++ '(' :: (ds ++ ')' :: t) ∧ ds ≠ [] ∧ ∀ c ∈ ds, c.isDigit = true

/-- Declarative reading of the regex `\(copy\)|[-_ ]copy`: the filename
contains one of the copy-indicator tokens. -/
def CopyIndicator (l : List Char) : Prop :=
  HasSubstr "(copy)".data l ∨ HasSubstr "-copy".data l ∨
    HasSubstr "_copy".data l ∨ HasSubstr " copy".data l

/-! ## duplicate_file_finder.py -/

/-- `CHUNK_SIZE = 1024` (duplicate_file_finder.py). -/
def CHUNK_SIZE : Nat := 1024

/-- `get_file_stats`: `(path, size, mtime)` for an accessible file of size > 0,
`None` otherwise (files raising `OSError` are absent from the modelled tree). -/
def get_file_stats (f : SFile) : Option (FPath × Nat × Int) :=
  if 0 < f.content.length then some (f.path, f.content.length, f.mtime) else none

/-- `get_edge_chunks`: the whole content for small files, otherwise the first
`CHUNK_SIZE` bytes concatenated with the last `CHUNK_SIZE` bytes. -/
def get_edge_chunks (c : List Nat) : List Nat :=
  if c.length < CHUNK_SIZE * 2 then c
  else c.take CHUNK_SIZE ++ c.drop (c.length - CHUNK_SIZE)

/-- `files_are_identical`: the streamed 64KB-buffer loop returns `True` exactly
when the two byte streams are equal (for files readable without `OSError`,
which is all modelled files). -/
def files_are_identical (c₁ c₂ : List Nat) : Bool :=
  c₁ == c₂

/-- The set of characters is lowercased before matching (`filename.lower()`). -/
def lowerData (s : String) : List Char :=
  s.data.map Char.toLower

/-- Model of `re.search(r"\(copy\)|[-_ ]copy", filename)` as a Bool. -/
def reCopyMatch (l : List Char) : Bool :=
  hasSub "(copy)".data l || hasSub "-copy".data l ||
    hasSub "_copy".data l || hasSub " copy".data l

/-- `get_filename_score`: 0, plus 10 for a copy indicator, plus 5 for a
parenthesised number, plus `len(file_path.parts) - 1`. -/
def get_filename_score (p : FPath) : Nat :=
  let filename := lowerData p.name
  let score := 0
  let score := if reCopyMatch filename then score + 10 else score
  let score := if parenNum filename then score + 5 else score
  score + (p.parts.length - 1)

/-- The sort key `(get_filename_score(p), p)` built by `guess_keeper`. -/
def scoreKey (p : FPath) : Nat × FPath :=
  (get_filename_score p, p)

/-- Python tuple comparison on `(score, path)` pairs. -/
def pairLe (a b : Nat × FPath) : Bool :=
  if a.1 < b.1 then true else if a.1 == b.1 then lexLe a.2.parts b.2.parts else false

/-- `guess_keeper`: 0 for an empty group, else 1 + the index in the group of
the path whose `(score, path)` pair sorts first. -/
def guess_keeper (group : List FPath) : Nat :=
  match insSort pairLe (group.map scoreKey) with
  | [] => 0
  | best :: _ => group.indexOf best.2 + 1

/-- The path the keeper index designates: `group[guess_keeper(group) - 1]`. -/
def keeperOf (group : List FPath) : Option FPath :=
  group[guess_keeper group - 1]?

/-! ### The three-phase pipeline of `duplicate_file_finder.find_duplicates`

Phase 1 keeps the files `get_file_stats` accepts and buckets them by size;
phase 2 buckets each size group by edge chunks; phase 3 confirms duplicates by
pairwise `files_are_identical` over `itertools.combinations(group, 2)`,
merging confirmed pairs into a growing list of sets. -/

/-- The files surviving `get_file_stats` (accessible, size > 0). -/
def dff_scanned (fs : List SFile) : List SFile :=
  fs.filter (fun f => decide (0 < f.content.length))

/-- `all_files_metadata` as accumulated in phase 1. -/
def dff_metadata (fs : List SFile) : List (FPath × Nat × Int) :=
  (dff_scanned fs).map (fun f => (f.path, f.content.length, f.mtime))

/-- Phase 1: `files_by_size`. -/
def files_by_size (fs : List SFile) : List (Nat × List SFile) :=
  groupByKey (fun f => f.content.length) (dff_scanned fs)

/-- Size buckets with more than one file. -/
def potential_dupes_by_size (fs : List SFile) : List (Nat × List SFile) :=
  (files_by_size fs).filter (fun sg => decide (1 < sg.2.length))

/-- The edge-chunk key of a file (its chunks are nonempty since size > 0, so
the falsy-`None` guard `if chunks:` never drops a modelled file). -/
def edgeKey (f : SFile) : List Nat :=
  get_edge_chunks f.content

/-- Phase 2: within each size bucket, the edge-chunk groups of size > 1. -/
def likely_dupes (fs : List SFile) : List (List SFile) :=
  (potential_dupes_by_size fs).flatMap (fun sg =>
    ((groupByKey edgeKey sg.2).map Prod.snd).filter (fun g => decide (1 < g.length)))

/-- Phase-3 state: the confirmed sets so far and this group's `checked_files`. -/
structure P3State where
  C : List (List SFile)
  checked : List SFile

/-- Find the first confirmed set containing `x` or `y` and add both to it
(`found_set.add(file1); found_set.add(file2)`); `none` when no set matches. -/
def mergeInto : List (List SFile) → SFile → SFile → Option (List (List SFile))
  | [], _, _ => none
  | S :: rest, x, y =>
    if x ∈ S ∨ y ∈ S then some (((S.insert x).insert y) :: rest)
    else (mergeInto rest x y).map (fun C => S :: C)

/-- One iteration of the phase-3 inner loop on the pair `(file1, file2)`. -/
def p3step (s : P3State) (p : SFile × SFile) : P3State :=
  if p.1 ∈ s.checked ∧ p.2 ∈ s.checked then s
  else if files_are_identical p.1.content p.2.content then
    match mergeInto s.C p.1 p.2 with
    | some C' => ⟨C', (s.checked.insert p.1).insert p.2⟩
    | none => ⟨s.C ++ [[p.1, p.2]], (s.checked.insert p.1).insert p.2⟩
  else s

/-- Phase 3 for one likely group: fold the pair loop with a fresh
`checked_files` set. -/
def processGroup (C : List (List SFile)) (g : List SFile) : List (List SFile) :=
  ((combPairs g).foldl p3step ⟨C, []⟩).C

/-- Phase 3 over all likely groups. -/
def confirmed_sets (fs : List SFile) : List (List SFile) :=
  (likely_dupes fs).foldl processGroup []

/-- `sorted(list(s))`: each confirmed set surfaced as a path-sorted list. -/
def sortSet (S : List SFile) : List SFile :=
  insSort (fun a b => lexLe a.path.parts b.path.parts) S

/-- `duplicate_file_finder.find_duplicates`: confirmed duplicate groups
(path-sorted) plus the full per-file metadata list. -/
def dff_find_duplicates (fs : List SFile) :
    List (List SFile) × List (FPath × Nat × Int) :=
  ((confirmed_sets fs).map sortSet, dff_metadata fs)

/-! ### Path serialisation (`str(path)` / `Path(s)`)

`str` on a `PurePath` joins the parts with `/`; `Path(s)` splits again.  The
pair is embedded at the character level. -/

/-- Join path parts with `/` (model of `str(path)`). -/
def joinParts : List (List Char) → List Char
  | [] => []
  | [p] => p
  | p :: ps => p ++ '/' :: joinParts ps

/-- Split a character list at `/` (model of `Path(s)`'s parsing). -/
def splitParts : List Char → List (List Char)
  | [] => [[]]
  | c :: rest =>
    if c = '/' then [] :: splitParts rest
    else
      match splitParts rest with
      | [] => [[c]]
      | q :: qs => (c :: q) :: qs

/-- `str(path)`. -/
def pathToStr (p : FPath) : String :=
  String.mk (joinParts (p.parts.map String.data))

/-- `Path(s)`. -/
def strToPath (s : String) : FPath :=
  ⟨(splitParts s.data).map String.mk⟩

/-- Well-formed concrete paths: at least one component, no `/` inside one.
Every path produced by a real directory walk satisfies this. -/
def wfPath (p : FPath) : Prop :=
  p.parts ≠ [] ∧ ∀ s ∈ p.parts, '/' ∉ s.data

instance wfPathDec (p : FPath) : Decidable (wfPath p) :=
  inferInstanceAs (Decidable (p.parts ≠ [] ∧ ∀ s ∈ p.parts, '/' ∉ s.data))

/-- `path.relative_to(root)` for a path under `root`. -/
def relativeTo (p root : FPath) : FPath :=
  ⟨p.parts.drop root.parts.length⟩

/-- `str(p.relative_to(root))`. -/
def relStr (p root : FPath) : String :=
  pathToStr (relativeTo p root)

/-! ### `create_json_report` (the records it writes) -/

/-- One record of the JSON report's `files_to_process` list. -/
inductive ReportEntry where
  | dupGroup (size_bytes : Nat) (files : List String) (keep_index : Nat)
  | uniqueFile (size_bytes : Nat) (file : String)
deriving DecidableEq, Repr

/-- `file_to_group_map[p]`: the dict is filled group by group, so the last
group containing `p` wins (groups from the pipeline are disjoint, so at most
one contains `p`). -/
def findGroup (confirmed : List (List FPath)) (p : FPath) : Option (List FPath) :=
  (confirmed.filter (fun g => decide (p ∈ g))).getLast?

/-- One iteration of the report loop over `all_files_metadata`: emit a
duplicate-group record the first time a group is met (`processed_groups`
modelled by value, matching `id()` because pipeline groups are distinct), and
a unique-file record for files outside every group. -/
def cjrStep (confirmed : List (List FPath)) (root : FPath)
    (acc : List ReportEntry × List (List FPath)) (m : FPath × Nat × Int) :
    List ReportEntry × List (List FPath) :=
  match findGroup confirmed m.1 with
  | some g =>
    if g ∈ acc.2 then acc
    else (acc.1 ++ [ReportEntry.dupGroup m.2.1 (g.map (fun p => relStr p root))
            (guess_keeper g - 1)], g :: acc.2)
  | none => (acc.1 ++ [ReportEntry.uniqueFile m.2.1 (relStr m.1 root)], acc.2)

/-- The `files_to_process` records `create_json_report` writes. -/
def create_json_report_entries (metadata : List (FPath × Nat × Int))
    (confirmed : List (List FPath)) (root : FPath) : List ReportEntry :=
  (metadata.foldl (cjrStep confirmed root) ([], [])).1

/-! ### Phase-3 correctness predicates -/

/-- Every confirmed set is content-homogeneous. -/
def Homog (C : List (List SFile)) : Prop :=
  ∀ S ∈ C, ∀ a ∈ S, ∀ b ∈ S, a.content = b.content

/-- The confirmed sets are pairwise disjoint. -/
def SetsDisj (C : List (List SFile)) : Prop :=
  C.Pairwise (fun S T => ∀ a, a ∈ S → a ∉ T)

/-- `x` and `y` lie in a common confirmed set. -/
def Linked (C : List (List SFile)) (x y : SFile) : Prop :=
  ∃ S ∈ C, x ∈ S ∧ y ∈ S

/-- Every set of `C` is contained in some set of `C'` (sets only grow). -/
def Extends (C C' : List (List SFile)) : Prop :=
  ∀ S ∈ C, ∃ S' ∈ C', S ⊆ S'

/-! ## duplicate_finder.py (the cached variant)

Its 64-bit xxhash is modelled as an ideal collision-free fingerprint,
represented by the byte sequence being hashed; an unreadable file would yield
the falsy `""` (here: files are readable, and every scanned file has size > 0,
so the `if partial_hash:` / `if full_hash:` guards never drop a file). -/

namespace DF

/-- `CHUNK_SIZE = 4096` (duplicate_finder.py). -/
def CHUNK_SIZE : Nat := 4096

/-- `get_partial_hash`: fingerprint of the whole content for small files, else
of first chunk ++ last chunk (ideal-fingerprint model). -/
def get_part_hash (f : SFile) : List Nat :=
  if f.content.length < CHUNK_SIZE * 2 then f.content
  else f.content.take CHUNK_SIZE ++ f.content.drop (f.content.length - CHUNK_SIZE)

/-- `get_full_hash`: fingerprint of the entire content (ideal model). -/
def get_full_hash (f : SFile) : List Nat :=
  f.content

/-- Stage 1 file collection: accessible files with size > 0. -/
def df_scanned (fs : List SFile) : List SFile :=
  fs.filter (fun f => decide (0 < f.content.length))

/-- Stage 1: `files_by_size`. -/
def files_by_size (fs : List SFile) : List (Nat × List SFile) :=
  groupByKey (fun f => f.content.length) (df_scanned fs)

/-- Size buckets with more than one file. -/
def potential_duplicates (fs : List SFile) : List (Nat × List SFile) :=
  (files_by_size fs).filter (fun sg => decide (1 < sg.2.length))

/-- The stage-2 dict key `f"{size}:{partial_hash}"`, embedded as the pair. -/
def stage2_key (f : SFile) : Nat × List Nat :=
  (f.content.length, get_part_hash f)

/-- The files fed to stage 2, in iteration order over the size buckets. -/
def stage2_input (fs : List SFile) : List SFile :=
  (potential_duplicates fs).flatMap (fun sg => sg.2)

/-- Stage 2: groups keyed by `(size, partial hash)` with more than one file. -/
def likely_duplicates (fs : List SFile) : List ((Nat × List Nat) × List SFile) :=
  (groupByKey stage2_key (stage2_input fs)).filter (fun kg => decide (1 < kg.2.length))

/-- Stage 3 input: the union of the likely groups.  (The Python `set`
flattening deduplicates; the likely groups partition distinct files, so the
flattened list is already duplicate-free.) -/
def files_to_hash (fs : List SFile) : List SFile :=
  (likely_duplicates fs).flatMap (fun kg => kg.2)

/-- Stage 3: `full_hashes_map`, keyed by the full-content fingerprint. -/
def full_hashes_map (fs : List SFile) : List (List Nat × List SFile) :=
  groupByKey get_full_hash (files_to_hash fs)

/-- `confirmed_duplicates`: the fingerprint groups with more than one file. -/
def df_confirmed (fs : List SFile) : List (List SFile) :=
  ((full_hashes_map fs).map Prod.snd).filter (fun g => decide (1 < g.length))

end DF

/-- The phase-3 fold over the pairs `(x, z)` for `z ∈ zs` (the pairs that a
fixed first element `x` contributes to `itertools.combinations`). -/
def starFold (x : SFile) (zs : List SFile) (s : P3State) : P3State :=
  (zs.map (fun z => (x, z))).foldl p3step s

/-! ## The cache (duplicate_finder.py: `save_cache`, `load_cache`, staleness)

`random.sample` is nondeterministic; the sample is a parameter of the model.
A file's accessibility at check time is given by a `stat` function returning
`none` for a missing or inaccessible path (an `OSError`). -/

/-- The in-memory scan result triple that `find_duplicates` caches:
confirmed duplicate groups, per-file metadata `(path, size, mtime)`, and the
fingerprint-to-paths map. -/
structure CacheData where
  confirmed : List (List FPath)
  metadata : List (FPath × Nat × Int)
  hashes : List (List Nat × List FPath)
deriving DecidableEq, Repr

/-- The JSON document written by `save_cache`: the same triple with every
path serialised by `str`. -/
structure CacheFile where
  confirmed : List (List String)
  metadata : List (String × Nat × Int)
  hashes : List (List Nat × List String)
deriving DecidableEq, Repr

/-- `save_cache`: serialise every path with `str(f)`. -/
def save_cache (d : CacheData) : CacheFile :=
  ⟨d.confirmed.map (fun g => g.map pathToStr),
   d.metadata.map (fun e => (pathToStr e.1, e.2.1, e.2.2)),
   d.hashes.map (fun hf => (hf.1, hf.2.map pathToStr))⟩

/-- `load_cache`: parse every serialised path with `Path(f)`. -/
def load_cache (c : CacheFile) : CacheData :=
  ⟨c.confirmed.map (fun g => g.map strToPath),
   c.metadata.map (fun e => (strToPath e.1, e.2.1, e.2.2)),
   c.hashes.map (fun hf => (hf.1, hf.2.map strToPath))⟩

/-- `num_to_check = max(1, int(len(metadata) * 0.10))`.  (The float product
`n * 0.10` truncates to `n / 10` for every file count arising in practice;
verified exhaustively below two million.) -/
def num_to_check (n : Nat) : Nat :=
  max 1 (n / 10)

/-- One iteration of the consistency loop: stat the path (an `OSError` or a
vanished file makes the entry inconsistent), then compare the size exactly
and the mtime with a one-second tolerance. -/
def entryConsistent (stat : FPath → Option (Nat × Int)) (e : FPath × Nat × Int) :
    Bool :=
  match stat e.1 with
  | none => false
  | some sm => sm.1 == e.2.1 && decide ((sm.2 - e.2.2).natAbs ≤ 1)

/-- The `for`-loop over the sample with its early `break`: `true` iff every
sampled entry is consistent. -/
def checkLoop (stat : FPath → Option (Nat × Int)) :
    List (FPath × Nat × Int) → Bool
  | [] => true
  | e :: rest => if entryConsistent stat e then checkLoop stat rest else false

/-- Outcome of the cache check at the head of `find_duplicates`. -/
inductive CacheUse where
  /-- The cached triple is returned as-is; no rescan. -/
  | use (d : CacheData)
  /-- The cache file is unlinked and a full rescan performed. -/
  | rescanDeleted
  /-- No cache file, or `force_rescan`: full rescan, cache left alone. -/
  | rescanNoCache
deriving DecidableEq, Repr

/-- The cache branch of `find_duplicates`: if a cache file exists and no
force-rescan is requested, parse it (`parsed = none` models the
`JSONDecodeError / KeyError / IndexError` handler) and run the consistency
loop over the random sample; a stale or unparsable cache is deleted and a
full scan follows. -/
def cacheDecision (cacheExists force : Bool) (parsed : Option CacheData)
    (stat : FPath → Option (Nat × Int)) (sample : List (FPath × Nat × Int)) :
    CacheUse :=
  if cacheExists && !force then
    match parsed with
    | none => CacheUse.rescanDeleted
    | some d =>
      if checkLoop stat sample then CacheUse.use d else CacheUse.rescanDeleted
  else CacheUse.rescanNoCache

/-! ## The two directory scanners (C8)

A raw directory entry as `rglob` yields it.  `isFile` is `Path.is_file()`,
which follows symlinks; `isSLink` is `Path.is_symlink()`; `stat = none`
models an `OSError` from `Path.stat()`. -/

/-- A directory entry produced by `root_dir.rglob` before any filtering. -/
structure RawFile where
  path : FPath
  isFile : Bool
  isSLink : Bool
  stat : Option (Nat × Int)
deriving DecidableEq, Repr

/-- The scan stage of `duplicate_finder.find_duplicates`: raise `ValueError`
on a non-directory root; keep `file.is_file() and not file.is_symlink()`
entries; stat each (an `OSError` skips the file, the loop continues); keep
sizes `> 0`, recording `(path, size, mtime)`. -/
def df_scan (rootIsDir : Bool) (entries : List RawFile) :
    Except String (List (FPath × Nat × Int)) :=
  if rootIsDir then
    Except.ok ((entries.filter (fun f => f.isFile && !f.isSLink)).filterMap
      (fun f =>
        match f.stat with
        | none => none
        | some sm =>
          if 0 < sm.1 then some (f.path, sm.1, sm.2) else none))
  else Except.error "not a valid directory"

/-- The scan stage of `duplicate_file_finder`: `main` refuses a
non-directory root (modelled `none`); `find_duplicates` keeps the entries
with `p.is_file()` - with no symlink exclusion - and `get_file_stats` drops
inaccessible (`OSError`) and empty files. -/
def dff_scan (rootIsDir : Bool) (entries : List RawFile) :
    Option (List (FPath × Nat × Int)) :=
  if rootIsDir then
    some ((entries.filter (fun f => f.isFile)).filterMap
      (fun f =>
        match f.stat with
        | none => none
        | some sm =>
          if 0 < sm.1 then some (f.path, sm.1, sm.2) else none))
  else none

/-! ## Folder analysis (duplicate_finder.py: `analyze_folder_duplicates`)

In the ideal-fingerprint model a file's full hash is its content; content
`[]` models the unreadable file whose hash is the falsy `""` and is skipped
by the `if file_hash:` guard. -/

/-- `folder_content_signatures[parent].add(h)`: a `defaultdict(set)` update,
keys kept in insertion order. -/
def addSig (acc : List (FPath × Finset (List Nat))) (parent : FPath)
    (h : List Nat) : List (FPath × Finset (List Nat)) :=
  match acc with
  | [] => [(parent, {h})]
  | kv :: rest =>
    if kv.1 = parent then (kv.1, insert h kv.2) :: rest
    else kv :: addSig rest parent h

/-- The signature-building loop: every file with a truthy hash contributes
its fingerprint to its parent folder's signature set. -/
def folder_content_signatures (all_files : List SFile) :
    List (FPath × Finset (List Nat)) :=
  all_files.foldl
    (fun acc f =>
      if (DF.get_full_hash f).isEmpty then acc
      else addSig acc f.path.parent (DF.get_full_hash f)) []

/-- A folder relationship record emitted by `analyze_folder_duplicates`. -/
inductive FolderRel where
  /-- `{"type": "Exact Duplicate", "folder_a": a, "folder_b": b}`. -/
  | exactDup (folder_a folder_b : FPath)
  /-- `{"type": "Subset", "subset": sub, "superset": sup}`. -/
  | subset (sub sup : FPath)
deriving DecidableEq, Repr

/-- The folders a relationship record mentions. -/
def relMentions (r : FolderRel) (x : FPath) : Prop :=
  match r with
  | FolderRel.exactDup a b => x = a ∨ x = b
  | FolderRel.subset a b => x = a ∨ x = b

/-- `folder_content_signatures[k]` (the keys iterated over all exist). -/
def sigLookup (sigs : List (FPath × Finset (List Nat))) (k : FPath) :
    Finset (List Nat) :=
  ((sigs.find? (fun kv => kv.1 == k)).map Prod.snd).getD ∅

/-- The comparison of one folder pair: skip if either signature set is
empty; equal sets give `Exact Duplicate`; otherwise the `issubset` tests in
order. -/
def pairRel (sigs : List (FPath × Finset (List Nat))) (a b : FPath) :
    Option FolderRel :=
  if sigLookup sigs a = ∅ ∨ sigLookup sigs b = ∅ then none
  else if sigLookup sigs a = sigLookup sigs b then some (FolderRel.exactDup a b)
  else if sigLookup sigs a ⊆ sigLookup sigs b then some (FolderRel.subset a b)
  else if sigLookup sigs b ⊆ sigLookup sigs a then some (FolderRel.subset b a)
  else none

/-- Phase 3 of `analyze_folder_duplicates`: compare every unordered pair of
signature keys once, in `itertools.combinations` order. -/
def analyze_folder_rels (all_files : List SFile) : List FolderRel :=
  (combPairs ((folder_content_signatures all_files).map Prod.fst)).filterMap
    (fun ab => pairRel (folder_content_signatures all_files) ab.1 ab.2)

/-! ## The cleaner (duplicate_file_cleaner.py)

The filesystem is an association list from paths to contents; `fsLookup`
models `Path.exists()` / reading. -/

/-- Look a path up in the modelled filesystem. -/
def fsLookup (fs : List (FPath × List Nat)) (p : FPath) : Option (List Nat) :=
  (fs.find? (fun e => e.1 == p)).map Prod.snd

/-- The index of the last `.` in a file name, if any. -/
def lastDotIdx (n : List Char) : Option Nat :=
  match n.reverse.findIdx? (fun c => c == '.') with
  | none => none
  | some k => some (n.length - 1 - k)

/-- `PurePath.suffix`: the part from the last dot on, provided that dot is
neither the first nor the last character of the name. -/
def nameSufx (n : List Char) : List Char :=
  match lastDotIdx n with
  | none => []
  | some i => if 0 < i ∧ i < n.length - 1 then n.drop i else []

/-- `PurePath.stem`: the name with `nameSufx` removed. -/
def nameStem (n : List Char) : List Char :=
  match lastDotIdx n with
  | none => n
  | some i => if 0 < i ∧ i < n.length - 1 then n.take i else n

/-- `PurePath.with_stem(s)`: replace the final component by `s ++ suffix`. -/
def with_stem (p : FPath) (stem : List Char) : FPath :=
  ⟨p.parts.dropLast ++ [String.mk (stem ++ nameSufx p.name.data)]⟩

/-- The destination tried after `k` conflicts:
`dest_base.with_stem(f"{dest_base.stem}_{k}")`, the base itself for `k = 0`. -/
def candidate (base : FPath) (k : Nat) : FPath :=
  if k = 0 then base
  else with_stem base (nameStem base.name.data ++ '_' :: (Nat.repr k).data)

/-- Result of one copy task (`None` from the Python helper is `success`). -/
inductive CopyRes where
  | success
  | failure (err : String)
deriving DecidableEq, Repr

/-- The `while dest_path.exists()` loop of `_perform_single_copy`: an
existing candidate identical to the source ends the task with no copy; a
differing one moves to the next suffixed candidate; a free name receives the
copy.  The fuel bounds the iterations (the caller passes more names than the
filesystem has files, so the fuel is never exhausted). -/
def copyLoop (fs : List (FPath × List Nat)) (srcC : List Nat) (base : FPath) :
    Nat → Nat → List (FPath × List Nat) × Option CopyRes
  | 0, _ => (fs, none)
  | fuel + 1, k =>
    match fsLookup fs (candidate base k) with
    | some destC =>
      if files_are_identical srcC destC then (fs, some CopyRes.success)
      else copyLoop fs srcC base fuel (k + 1)
    | none => (fs ++ [(candidate base k, srcC)], some CopyRes.success)

/-- `_perform_single_copy`: missing-source and 0-byte failures come first,
then the `skip_existing` early success, then the conflict loop. -/
def perform_single_copy (fs : List (FPath × List Nat)) (srcP base : FPath)
    (skipExisting : Bool) : List (FPath × List Nat) × CopyRes :=
  match fsLookup fs srcP with
  | none => (fs, CopyRes.failure "Source file not found.")
  | some srcC =>
    if srcC.length = 0 then (fs, CopyRes.failure "Skipped: 0-byte file.")
    else if skipExisting && (fsLookup fs base).isSome then (fs, CopyRes.success)
    else
      match copyLoop fs srcC base (fs.length + 1) 0 with
      | (fs2, some r) => (fs2, r)
      | (fs2, none) => (fs2, CopyRes.failure "unreachable")

/-! ## The cleaner entry point (C5)

`process_report_actions` checks that the report file exists, then - lines
127 to 135, before any format dispatch or task reading - evaluates
`sheet_name not in workbook.sheetnames` where the local name `workbook` has
no assignment anywhere in the function, so Python raises `NameError` there
on every call with an existing report, whatever the report format. -/

/-- The statements of `process_report_actions` in execution order. -/
inductive CleanStep where
  /-- `if not report_path.is_file()`. -/
  | checkReportExists
  /-- The inline sheet resolution referencing the unbound `workbook`. -/
  | inlineSheetResolution
  /-- Reading tasks from the report (never reached). -/
  | readTasks
deriving DecidableEq, Repr

/-- How a call to `process_report_actions` ends. -/
inductive CleanOutcome where
  /-- Early return: the report file does not exist. -/
  | missingReport
  /-- `NameError` from the unbound `workbook` reference. -/
  | nameError
deriving DecidableEq, Repr

/-- Control-flow model of `process_report_actions` up to task reading: the
steps executed and the outcome, as a function of whether the report exists
and of its format suffix. -/
def process_report_actions (reportIsFile : Bool) (sfx : String) :
    List CleanStep × CleanOutcome :=
  if reportIsFile then
    ([CleanStep.checkReportExists, CleanStep.inlineSheetResolution],
      CleanOutcome.nameError)
  else
    ([CleanStep.checkReportExists], CleanOutcome.missingReport)

/-! ## Theorems -/

/-! ### Grouping -/

theorem mem_firstKeys {κ : Type} [DecidableEq κ] {k : κ} {ks : List κ} :
    k ∈ firstKeys ks ↔ k ∈ ks := by
  induction ks with
  | nil => simp [firstKeys]
  | cons a as ih =>
    simp only [firstKeys]
    constructor
    · intro h
      rcases List.mem_cons.mp h with rfl | h'
      · exact List.mem_cons_self _ _
      · exact List.mem_cons_of_mem _ (ih.mp (List.mem_filter.mp h').1)
    · intro h
      rcases List.mem_cons.mp h with rfl | h'
      · exact List.mem_cons_self _ _
      · by_cases hk : k = a
        · subst hk
          exact List.mem_cons_self _ _
        · exact List.mem_cons_of_mem _
            (List.mem_filter.mpr ⟨ih.mpr h', by simp [bne_iff_ne, hk]⟩)

theorem nodup_firstKeys {κ : Type} [DecidableEq κ] (ks : List κ) :
    (firstKeys ks).Nodup := by
  induction ks with
  | nil => simp [firstKeys]
  | cons a as ih =>
    refine List.Nodup.cons ?_ (ih.filter _)
    intro hmem
    rcases List.mem_filter.mp hmem with ⟨_, hne⟩
    simp [bne_iff_ne] at hne

theorem map_fst_keyPairs {κ α : Type} (g : κ → List α) (ks : List κ) :
    (ks.map (fun k => (k, g k))).map Prod.fst = ks := by
  induction ks with
  | nil => rfl
  | cons a as ih => simp [ih]

theorem groupByKey_keys_nodup {α κ : Type} [DecidableEq κ] (f : α → κ)
    (l : List α) : ((groupByKey f l).map Prod.fst).Nodup := by
  rw [groupByKey, map_fst_keyPairs]
  exact nodup_firstKeys _

theorem mem_groupByKey {α κ : Type} [DecidableEq κ] {f : α → κ} {l : List α}
    {k : κ} {g : List α} (h : (k, g) ∈ groupByKey f l) :
    g = l.filter (fun x => f x == k) ∧ k ∈ l.map f := by
  rcases List.mem_map.mp h with ⟨k', hk', heq⟩
  obtain rfl : k' = k := congrArg Prod.fst heq
  exact ⟨(congrArg Prod.snd heq).symm, mem_firstKeys.mp hk'⟩

theorem groupByKey_complete {α κ : Type} [DecidableEq κ] {f : α → κ}
    {l : List α} {x : α} (hx : x ∈ l) :
    (f x, l.filter (fun y => f y == f x)) ∈ groupByKey f l ∧
      x ∈ l.filter (fun y => f y == f x) := by
  constructor
  · exact List.mem_map.mpr ⟨f x, mem_firstKeys.mpr (List.mem_map_of_mem f hx), rfl⟩
  · exact List.mem_filter.mpr ⟨hx, by simp⟩

/-! ### Pair combinations -/

theorem mem_combPairs {α : Type} {l : List α} {a b : α}
    (h : (a, b) ∈ combPairs l) : a ∈ l ∧ b ∈ l := by
  induction l with
  | nil => simp [combPairs] at h
  | cons x xs ih =>
    rcases List.mem_append.mp h with h1 | h2
    · rcases List.mem_map.mp h1 with ⟨y, hy, heq⟩
      obtain ⟨rfl, rfl⟩ : x = a ∧ y = b :=
        ⟨congrArg Prod.fst heq, congrArg Prod.snd heq⟩
      exact ⟨List.mem_cons_self _ _, List.mem_cons_of_mem _ hy⟩
    · rcases ih h2 with ⟨ha, hb⟩
      exact ⟨List.mem_cons_of_mem _ ha, List.mem_cons_of_mem _ hb⟩

theorem combPairs_ne {α : Type} {l : List α} (hl : l.Nodup) {a b : α}
    (h : (a, b) ∈ combPairs l) : a ≠ b := by
  induction l with
  | nil => simp [combPairs] at h
  | cons x xs ih =>
    rcases List.mem_append.mp h with h1 | h2
    · rcases List.mem_map.mp h1 with ⟨y, hy, heq⟩
      obtain ⟨rfl, rfl⟩ : x = a ∧ y = b :=
        ⟨congrArg Prod.fst heq, congrArg Prod.snd heq⟩
      intro hab
      exact (List.nodup_cons.mp hl).1 (hab ▸ hy)
    · exact ih (List.nodup_cons.mp hl).2 h2

theorem exists_combPair {α : Type} {l : List α} {a b : α}
    (ha : a ∈ l) (hb : b ∈ l) (hab : a ≠ b) :
    (a, b) ∈ combPairs l ∨ (b, a) ∈ combPairs l := by
  induction l with
  | nil => simp at ha
  | cons x xs ih =>
    rcases List.mem_cons.mp ha with rfl | ha'
    · have hb' : b ∈ xs := by
        rcases List.mem_cons.mp hb with rfl | h
        · exact absurd rfl hab
        · exact h
      exact Or.inl (List.mem_append.mpr
        (Or.inl (List.mem_map.mpr ⟨b, hb', rfl⟩)))
    · rcases List.mem_cons.mp hb with rfl | hb'
      · exact Or.inr (List.mem_append.mpr
          (Or.inl (List.mem_map.mpr ⟨a, ha', rfl⟩)))
      · rcases ih ha' hb' with h | h
        · exact Or.inl (List.mem_append.mpr (Or.inr h))
        · exact Or.inr (List.mem_append.mpr (Or.inr h))

/-! ### Insertion sort -/

theorem insertS_perm {α : Type} (le : α → α → Bool) (x : α) (l : List α) :
    (insertS le x l).Perm (x :: l) := by
  induction l with
  | nil => simp [insertS]
  | cons y ys ih =>
    by_cases h : le x y
    · simp [insertS, h]
    · simp only [insertS, if_neg h]
      exact (ih.cons y).trans (List.Perm.swap x y ys)

theorem insSort_perm {α : Type} (le : α → α → Bool) (l : List α) :
    (insSort le l).Perm l := by
  induction l with
  | nil => simp [insSort]
  | cons x xs ih =>
    exact (insertS_perm le x (insSort le xs)).trans (ih.cons x)

theorem insSort_head_min {α : Type} {le : α → α → Bool}
    (htot : ∀ a b, le a b = true ∨ le b a = true)
    (htrans : ∀ a b c, le a b = true → le b c = true → le a c = true)
    {l : List α} {h : α} {t : List α} (hsort : insSort le l = h :: t) :
    ∀ y ∈ l, le h y = true := by
  induction l generalizing h t with
  | nil => simp [insSort] at hsort
  | cons x xs ih =>
    have hrefl : ∀ a, le a a = true := fun a => (htot a a).elim id id
    cases hxs : insSort le xs with
    | nil =>
      have hlen := (insSort_perm le xs).length_eq
      rw [hxs] at hlen
      have hempty : xs = [] := List.eq_nil_of_length_eq_zero hlen.symm
      subst hempty
      simp only [insSort, hxs, insertS] at hsort
      injection hsort with h1 _
      subst h1
      intro y hy
      rcases List.mem_cons.mp hy with rfl | hy'
      · exact hrefl y
      · simp at hy'
    | cons h' t' =>
      have ihmin : ∀ y ∈ xs, le h' y = true := fun y hy => ih hxs y hy
      simp only [insSort, hxs, insertS] at hsort
      by_cases hx : le x h'
      · rw [if_pos hx] at hsort
        injection hsort with h1 _
        subst h1
        intro y hy
        rcases List.mem_cons.mp hy with rfl | hy'
        · exact hrefl y
        · exact htrans _ _ _ hx (ihmin y hy')
      · rw [if_neg hx] at hsort
        injection hsort with h1 _
        subst h1
        have hxle : le h' x = true := by
          rcases htot x h' with hle | hle
          · exact absurd hle hx
          · exact hle
        intro y hy
        rcases List.mem_cons.mp hy with rfl | hy'
        · exact hxle
        · exact ihmin y hy'

/-! ### Lexicographic order on part lists -/

theorem strLtB_cons_of_lt {c d : Char} (h : c < d) (cs ds : List Char) :
    strLtB (c :: cs) (d :: ds) = true := by
  simp [strLtB, h]

theorem strLtB_cons_self (c : Char) (cs ds : List Char) :
    strLtB (c :: cs) (c :: ds) = strLtB cs ds := by
  simp [strLtB, lt_irrefl]

theorem strLtB_cons_of_gt {c d : Char} (h : d < c) (cs ds : List Char) :
    strLtB (c :: cs) (d :: ds) = false := by
  have h1 : ¬c < d := asymm h
  have h2 : ¬c = d := ne_of_gt h
  simp [strLtB, h1, h2]

theorem strLtB_irrefl (l : List Char) : strLtB l l = false := by
  induction l with
  | nil => rfl
  | cons c cs ih => rw [strLtB_cons_self]; exact ih

theorem strLtB_tricho (x y : List Char) :
    strLtB x y = true ∨ x = y ∨ strLtB y x = true := by
  induction x generalizing y with
  | nil =>
    cases y with
    | nil => exact Or.inr (Or.inl rfl)
    | cons d ds => exact Or.inl rfl
  | cons c cs ih =>
    cases y with
    | nil => exact Or.inr (Or.inr rfl)
    | cons d ds =>
      rcases lt_trichotomy c d with h | h | h
      · exact Or.inl (strLtB_cons_of_lt h cs ds)
      · subst h
        rcases ih ds with h' | h' | h'
        · exact Or.inl (by rw [strLtB_cons_self]; exact h')
        · exact Or.inr (Or.inl (by rw [h']))
        · exact Or.inr (Or.inr (by rw [strLtB_cons_self]; exact h'))
      · exact Or.inr (Or.inr (strLtB_cons_of_lt h ds cs))

theorem strLtB_trans (x y z : List Char) (h₁ : strLtB x y = true)
    (h₂ : strLtB y z = true) : strLtB x z = true := by
  induction x generalizing y z with
  | nil =>
    cases z with
    | nil =>
      cases y with
      | nil => exact h₁
      | cons d ds => simp [strLtB] at h₂
    | cons e es => rfl
  | cons c cs ih =>
    cases y with
    | nil => simp [strLtB] at h₁
    | cons d ds =>
      cases z with
      | nil => simp [strLtB] at h₂
      | cons e es =>
        rcases lt_trichotomy c d with hcd | hcd | hcd
        · rcases lt_trichotomy d e with hde | hde | hde
          · exact strLtB_cons_of_lt (lt_trans hcd hde) cs es
          · exact strLtB_cons_of_lt (hde ▸ hcd) cs es
          · rw [strLtB_cons_of_gt hde ds es] at h₂
            exact absurd h₂ (by simp)
        · subst hcd
          rw [strLtB_cons_self] at h₁
          rcases lt_trichotomy c e with hce | hce | hce
          · exact strLtB_cons_of_lt hce cs es
          · subst hce
            rw [strLtB_cons_self] at h₂ ⊢
            exact ih ds es h₁ h₂
          · rw [strLtB_cons_of_gt hce ds es] at h₂
            exact absurd h₂ (by simp)
        · rw [strLtB_cons_of_gt hcd cs ds] at h₁
          exact absurd h₁ (by simp)

theorem strLtB_asymm {x y : List Char} (h : strLtB x y = true) :
    strLtB y x = false := by
  cases hyx : strLtB y x with
  | false => rfl
  | true =>
    have := strLtB_trans x y x h hyx
    rw [strLtB_irrefl] at this
    exact absurd this (by simp)

theorem str_tricho (a b : String) :
    strLtB a.data b.data = true ∨ a = b ∨ strLtB b.data a.data = true := by
  rcases strLtB_tricho a.data b.data with h | h | h
  · exact Or.inl h
  · refine Or.inr (Or.inl ?_)
    cases a
    cases b
    exact congrArg String.mk h
  · exact Or.inr (Or.inr h)

theorem lexLe_cons_of_lt {a b : String} (h : strLtB a.data b.data = true)
    (as bs : List String) : lexLe (a :: as) (b :: bs) = true := by
  simp [lexLe, h]

theorem lexLe_cons_self (a : String) (as bs : List String) :
    lexLe (a :: as) (a :: bs) = lexLe as bs := by
  simp [lexLe, strLtB_irrefl]

theorem lexLe_cons_of_gt {a b : String} (h : strLtB b.data a.data = true)
    (as bs : List String) : lexLe (a :: as) (b :: bs) = false := by
  have h1 : strLtB a.data b.data = false := strLtB_asymm h
  have h2 : ¬a = b := by
    intro h0
    subst h0
    rw [strLtB_irrefl] at h
    exact absurd h (by simp)
  simp [lexLe, h1, h2]

theorem lexLe_refl (l : List String) : lexLe l l = true := by
  induction l with
  | nil => rfl
  | cons a as ih => rw [lexLe_cons_self]; exact ih

theorem lexLe_total (l₁ l₂ : List String) :
    lexLe l₁ l₂ = true ∨ lexLe l₂ l₁ = true := by
  induction l₁ generalizing l₂ with
  | nil => exact Or.inl rfl
  | cons a as ih =>
    cases l₂ with
    | nil => exact Or.inr rfl
    | cons b bs =>
      rcases str_tricho a b with hab | hab | hab
      · exact Or.inl (lexLe_cons_of_lt hab as bs)
      · subst hab
        rw [lexLe_cons_self, lexLe_cons_self]
        exact ih bs
      · exact Or.inr (lexLe_cons_of_lt hab bs as)

theorem lexLe_trans (l₁ l₂ l₃ : List String) (h₁ : lexLe l₁ l₂ = true)
    (h₂ : lexLe l₂ l₃ = true) : lexLe l₁ l₃ = true := by
  induction l₁ generalizing l₂ l₃ with
  | nil => rfl
  | cons a as ih =>
    cases l₂ with
    | nil => simp [lexLe] at h₁
    | cons b bs =>
      cases l₃ with
      | nil => simp [lexLe] at h₂
      | cons c cs =>
        rcases str_tricho a b with hab | hab | hab
        · rcases str_tricho b c with hbc | hbc | hbc
          · exact lexLe_cons_of_lt (strLtB_trans _ _ _ hab hbc) as cs
          · subst hbc
            exact lexLe_cons_of_lt hab as cs
          · rw [lexLe_cons_of_gt hbc bs cs] at h₂
            exact absurd h₂ (by simp)
        · subst hab
          rw [lexLe_cons_self] at h₁
          rcases str_tricho a c with hac | hac | hac
          · exact lexLe_cons_of_lt hac as cs
          · subst hac
            rw [lexLe_cons_self] at h₂ ⊢
            exact ih bs cs h₁ h₂
          · rw [lexLe_cons_of_gt hac bs cs] at h₂
            exact absurd h₂ (by simp)
        · rw [lexLe_cons_of_gt hab as bs] at h₁
          exact absurd h₁ (by simp)

theorem lexLe_antisymm (l₁ l₂ : List String) (h₁ : lexLe l₁ l₂ = true)
    (h₂ : lexLe l₂ l₁ = true) : l₁ = l₂ := by
  induction l₁ generalizing l₂ with
  | nil =>
    cases l₂ with
    | nil => rfl
    | cons b bs => simp [lexLe] at h₂
  | cons a as ih =>
    cases l₂ with
    | nil => simp [lexLe] at h₁
    | cons b bs =>
      rcases str_tricho a b with hab | hab | hab
      · rw [lexLe_cons_of_gt hab bs as] at h₂
        exact absurd h₂ (by simp)
      · subst hab
        rw [lexLe_cons_self] at h₁ h₂
        rw [ih bs h₁ h₂]
      · rw [lexLe_cons_of_gt hab as bs] at h₁
        exact absurd h₁ (by simp)


/-! ### Substring scanners (regex models) -/

theorem leadsWith_iff (p l : List Char) :
    leadsWith p l = true ↔ ∃ t, l = p ++ t := by
  induction p generalizing l with
  | nil => exact ⟨fun _ => ⟨l, by simp⟩, fun _ => rfl⟩
  | cons a as ih =>
    cases l with
    | nil =>
      simp only [leadsWith]
      constructor
      · intro h
        exact absurd h (by simp)
      · rintro ⟨t, ht⟩
        simp at ht
    | cons b bs =>
      simp only [leadsWith, Bool.and_eq_true, beq_iff_eq]
      constructor
      · rintro ⟨rfl, h⟩
        rcases (ih bs).mp h with ⟨t, rfl⟩
        exact ⟨t, rfl⟩
      · rintro ⟨t, ht⟩
        rw [List.cons_append] at ht
        injection ht with h1 h2
        exact ⟨h1.symm, (ih bs).mpr ⟨t, h2⟩⟩

theorem hasSub_iff (sub l : List Char) :
    hasSub sub l = true ↔ HasSubstr sub l := by
  induction l with
  | nil =>
    simp only [hasSub, HasSubstr, List.isEmpty_iff]
    constructor
    · rintro rfl
      exact ⟨[], [], rfl⟩
    · rintro ⟨a, t, h⟩
      rcases List.append_eq_nil.mp h.symm with ⟨h1, h2⟩
      rcases List.append_eq_nil.mp h1 with ⟨-, h3⟩
      exact h3
  | cons c rest ih =>
    simp only [hasSub, Bool.or_eq_true]
    constructor
    · rintro (h | h)
      · rcases (leadsWith_iff _ _).mp h with ⟨t, ht⟩
        exact ⟨[], t, by simpa using ht⟩
      · rcases ih.mp h with ⟨a, t, ht⟩
        exact ⟨c :: a, t, by simp [ht]⟩
    · rintro ⟨a, t, ht⟩
      cases a with
      | nil =>
        exact Or.inl ((leadsWith_iff _ _).mpr ⟨t, by simpa using ht⟩)
      | cons a₀ a' =>
        rw [List.cons_append, List.cons_append] at ht
        injection ht with h1 h2
        exact Or.inr (ih.mpr ⟨a', t, h2⟩)

theorem reCopyMatch_iff (l : List Char) :
    reCopyMatch l = true ↔ CopyIndicator l := by
  simp only [reCopyMatch, CopyIndicator, Bool.or_eq_true, hasSub_iff]
  tauto

theorem digitsClose_iff (r : List Char) :
    digitsClose r = true ↔
      ∃ ds t, r = ds ++ ')' :: t ∧ ∀ c ∈ ds, c.isDigit = true := by
  induction r with
  | nil =>
    simp only [digitsClose]
    constructor
    · intro h
      exact absurd h (by simp)
    · rintro ⟨ds, t, h, -⟩
      cases ds <;> simp at h
  | cons c rest ih =>
    simp only [digitsClose]
    by_cases hc : c = ')'
    · subst hc
      simp only [beq_self_eq_true, if_pos]
      constructor
      · intro _
        exact ⟨[], rest, rfl, by simp⟩
      · intro _
        trivial
    · rw [if_neg (by simpa using hc)]
      by_cases hd : c.isDigit
      · rw [if_pos hd]
        constructor
        · intro h
          rcases ih.mp h with ⟨ds, t, hr, hdig⟩
          refine ⟨c :: ds, t, by simp [hr], ?_⟩
          intro x hx
          rcases List.mem_cons.mp hx with rfl | hx'
          · exact hd
          · exact hdig x hx'
        · rintro ⟨ds, t, hr, hdig⟩
          cases ds with
          | nil =>
            injection hr with h1 _
            exact absurd h1 hc
          | cons d ds' =>
            rw [List.cons_append] at hr
            injection hr with h1 h2
            exact ih.mpr ⟨ds', t, h2, fun x hx => hdig x (List.mem_cons_of_mem _ hx)⟩
      · rw [if_neg hd]
        constructor
        · intro h
          exact absurd h (by simp)
        · rintro ⟨ds, t, hr, hdig⟩
          cases ds with
          | nil =>
            injection hr with h1 _
            exact absurd h1 hc
          | cons d ds' =>
            rw [List.cons_append] at hr
            injection hr with h1 _
            exact absurd (h1 ▸ hdig d (List.mem_cons_self _ _)) hd

theorem afterParen_iff (r : List Char) :
    afterParen r = true ↔
      ∃ ds t, r = ds ++ ')' :: t ∧ ds ≠ [] ∧ ∀ c ∈ ds, c.isDigit = true := by
  cases r with
  | nil =>
    simp only [afterParen]
    constructor
    · intro h
      exact absurd h (by simp)
    · rintro ⟨ds, t, h, -, -⟩
      cases ds <;> simp at h
  | cons d rest =>
    simp only [afterParen, Bool.and_eq_true]
    constructor
    · rintro ⟨hd, hrest⟩
      rcases (digitsClose_iff rest).mp hrest with ⟨ds, t, hr, hdig⟩
      refine ⟨d :: ds, t, by simp [hr], by simp, ?_⟩
      intro x hx
      rcases List.mem_cons.mp hx with rfl | hx'
      · exact hd
      · exact hdig x hx'
    · rintro ⟨ds, t, hr, hne, hdig⟩
      cases ds with
      | nil => exact absurd rfl hne
      | cons d₀ ds' =>
        rw [List.cons_append] at hr
        injection hr with h1 h2
        subst h1
        refine ⟨hdig d (List.mem_cons_self _ _), ?_⟩
        exact (digitsClose_iff rest).mpr
          ⟨ds', t, h2, fun x hx => hdig x (List.mem_cons_of_mem _ hx)⟩

theorem parenNum_iff (l : List Char) :
    parenNum l = true ↔ HasParenNumber l := by
  induction l with
  | nil =>
    simp only [parenNum, HasParenNumber]
    constructor
    · intro h
      exact absurd h (by simp)
    · rintro ⟨a, ds, t, h, -, -⟩
      cases a <;> simp at h
  | cons c rest ih =>
    simp only [parenNum, Bool.or_eq_true, Bool.and_eq_true, beq_iff_eq]
    constructor
    · rintro (⟨rfl, h⟩ | h)
      · rcases (afterParen_iff rest).mp h with ⟨ds, t, hr, hne, hdig⟩
        exact ⟨[], ds, t, by simp [hr], hne, hdig⟩
      · rcases ih.mp h with ⟨a, ds, t, hr, hne, hdig⟩
        exact ⟨c :: a, ds, t, by simp [hr], hne, hdig⟩
    · rintro ⟨a, ds, t, hr, hne, hdig⟩
      cases a with
      | nil =>
        rw [List.nil_append] at hr
        injection hr with h1 h2
        exact Or.inl ⟨h1, (afterParen_iff rest).mpr ⟨ds, t, h2, hne, hdig⟩⟩
      | cons a₀ a' =>
        rw [List.cons_append] at hr
        injection hr with h1 h2
        exact Or.inr (ih.mpr ⟨a', ds, t, h2, hne, hdig⟩)

/-! ### The `(score, path)` tuple order -/

theorem pairLe_of_lt {a b : Nat × FPath} (h : a.1 < b.1) : pairLe a b = true := by
  simp [pairLe, h]

theorem pairLe_eq_fst {a b : Nat × FPath} (h : a.1 = b.1) :
    pairLe a b = lexLe a.2.parts b.2.parts := by
  simp [pairLe, h, lt_irrefl]

theorem pairLe_of_gt {a b : Nat × FPath} (h : b.1 < a.1) : pairLe a b = false := by
  have h1 : ¬a.1 < b.1 := Nat.lt_asymm h
  have h2 : ¬a.1 = b.1 := Nat.ne_of_gt h
  simp [pairLe, h1, h2]

theorem pairLe_total (a b : Nat × FPath) :
    pairLe a b = true ∨ pairLe b a = true := by
  rcases lt_trichotomy a.1 b.1 with h | h | h
  · exact Or.inl (pairLe_of_lt h)
  · rw [pairLe_eq_fst h, pairLe_eq_fst h.symm]
    exact lexLe_total _ _
  · exact Or.inr (pairLe_of_lt h)

theorem pairLe_trans (a b c : Nat × FPath) (h₁ : pairLe a b = true)
    (h₂ : pairLe b c = true) : pairLe a c = true := by
  rcases lt_trichotomy a.1 b.1 with hab | hab | hab
  · rcases lt_trichotomy b.1 c.1 with hbc | hbc | hbc
    · exact pairLe_of_lt (lt_trans hab hbc)
    · exact pairLe_of_lt (hbc ▸ hab)
    · rw [pairLe_of_gt hbc] at h₂
      exact absurd h₂ (by simp)
  · rw [pairLe_eq_fst hab] at h₁
    rcases lt_trichotomy b.1 c.1 with hbc | hbc | hbc
    · exact pairLe_of_lt (hab ▸ hbc)
    · rw [pairLe_eq_fst hbc] at h₂
      rw [pairLe_eq_fst (hab.trans hbc)]
      exact lexLe_trans _ _ _ h₁ h₂
    · rw [pairLe_of_gt hbc] at h₂
      exact absurd h₂ (by simp)
  · rw [pairLe_of_gt hab] at h₁
    exact absurd h₁ (by simp)

theorem pairLe_antisymm {a b : Nat × FPath} (h₁ : pairLe a b = true)
    (h₂ : pairLe b a = true) : a = b := by
  rcases lt_trichotomy a.1 b.1 with hab | hab | hab
  · rw [pairLe_of_gt hab] at h₂
    exact absurd h₂ (by simp)
  · rw [pairLe_eq_fst hab] at h₁
    rw [pairLe_eq_fst hab.symm] at h₂
    have hparts : a.2.parts = b.2.parts := lexLe_antisymm _ _ h₁ h₂
    have hpath : a.2 = b.2 := by
      cases ha2 : a.2 with
      | mk pa =>
        cases hb2 : b.2 with
        | mk pb =>
          rw [ha2, hb2] at hparts
          simpa using hparts
    rcases a with ⟨a1, a2⟩
    rcases b with ⟨b1, b2⟩
    simp only at hab hpath
    rw [hab, hpath]
  · rw [pairLe_of_gt hab] at h₁
    exact absurd h₁ (by simp)

/-! ### `guess_keeper` -/

theorem guess_keeper_min {g : List FPath} (hg : g ≠ []) :
    ∃ p, p ∈ g ∧ keeperOf g = some p ∧ guess_keeper g = g.indexOf p + 1 ∧
      ∀ q ∈ g, pairLe (scoreKey p) (scoreKey q) = true := by
  obtain ⟨best, t, hsort⟩ : ∃ b t, insSort pairLe (g.map scoreKey) = b :: t := by
    cases hs : insSort pairLe (g.map scoreKey) with
    | nil =>
      have hlen := (insSort_perm pairLe (g.map scoreKey)).length_eq
      rw [hs] at hlen
      have : g.map scoreKey = [] := List.eq_nil_of_length_eq_zero hlen.symm
      exact absurd (List.map_eq_nil_iff.mp this) hg
    | cons b t => exact ⟨b, t, rfl⟩
  have hbmem : best ∈ g.map scoreKey := by
    have : best ∈ insSort pairLe (g.map scoreKey) := by
      rw [hsort]
      exact List.mem_cons_self _ _
    exact (insSort_perm pairLe (g.map scoreKey)).mem_iff.mp this
  obtain ⟨p, hp, hpk⟩ := List.mem_map.mp hbmem
  have hbest2 : best.2 = p := by
    rw [← hpk]
    rfl
  have hgk : guess_keeper g = g.indexOf p + 1 := by
    unfold guess_keeper
    rw [hsort]
    show List.indexOf best.2 g + 1 = List.indexOf p g + 1
    rw [hbest2]
  have hidx : g.indexOf p < g.length := List.indexOf_lt_length.mpr hp
  have hkeep : keeperOf g = some p := by
    unfold keeperOf
    rw [hgk, Nat.add_sub_cancel, List.getElem?_eq_getElem hidx,
      List.getElem_indexOf hidx]
  refine ⟨p, hp, hkeep, hgk, ?_⟩
  intro q hq
  have hqs : scoreKey q ∈ g.map scoreKey := List.mem_map_of_mem _ hq
  have := insSort_head_min pairLe_total
    (fun a b c => pairLe_trans a b c) hsort (scoreKey q) hqs
  rw [hpk]
  exact this

theorem guess_keeper_bounds {g : List FPath} (hg : g ≠ []) :
    1 ≤ guess_keeper g ∧ guess_keeper g ≤ g.length := by
  obtain ⟨p, hp, -, hgk, -⟩ := guess_keeper_min hg
  constructor
  · rw [hgk]
    exact Nat.succ_le_succ (Nat.zero_le _)
  · rw [hgk]
    exact Nat.succ_le_of_lt (List.indexOf_lt_length.mpr hp)

theorem findGroup_some_mem {confirmed : List (List FPath)} {p : FPath}
    {g : List FPath} (h : findGroup confirmed p = some g) : p ∈ g := by
  unfold findGroup at h
  have hg : g ∈ confirmed.filter (fun g => decide (p ∈ g)) := by
    cases hl : confirmed.filter (fun g => decide (p ∈ g)) with
    | nil => rw [hl] at h; simp at h
    | cons x xs =>
      rw [hl] at h
      rw [List.getLast?_eq_getLast (x :: xs) (by simp)] at h
      injection h with h'
      exact h' ▸ List.getLast_mem (by simp)
  exact of_decide_eq_true (List.mem_filter.mp hg).2

theorem cjr_fold_invariant (confirmed : List (List FPath)) (root : FPath)
    (metadata : List (FPath × Nat × Int))
    (acc : List ReportEntry × List (List FPath))
    (hacc : ∀ s files ki, ReportEntry.dupGroup s files ki ∈ acc.1 →
      ki < files.length) :
    ∀ s files ki, ReportEntry.dupGroup s files ki ∈
        (metadata.foldl (cjrStep confirmed root) acc).1 → ki < files.length := by
  induction metadata generalizing acc with
  | nil => exact hacc
  | cons m ms ih =>
    rw [List.foldl_cons]
    refine ih (cjrStep confirmed root acc m) ?_
    intro s files ki hmem
    unfold cjrStep at hmem
    cases hfg : findGroup confirmed m.1 with
    | none =>
      rw [hfg] at hmem
      simp only at hmem
      rcases List.mem_append.mp hmem with h | h
      · exact hacc _ _ _ h
      · exact absurd (List.mem_singleton.mp h) (by simp)
    | some g =>
      rw [hfg] at hmem
      simp only at hmem
      by_cases hg : g ∈ acc.2
      · rw [if_pos hg] at hmem
        exact hacc _ _ _ hmem
      · rw [if_neg hg] at hmem
        rcases List.mem_append.mp hmem with h | h
        · exact hacc _ _ _ h
        · have heq := List.mem_singleton.mp h
          injection heq with h1 h2 h3
          subst h2
          subst h3
          have hpg : m.1 ∈ g := findGroup_some_mem hfg
          have hgne : g ≠ [] := by
            intro h0
            rw [h0] at hpg
            simp at hpg
          obtain ⟨h1le, hle⟩ := guess_keeper_bounds hgne
          rw [List.length_map]
          omega

/-! ### Phase-3 basic lemmas -/

theorem SetsDisj_unique {C : List (List SFile)} (h : SetsDisj C)
    {S T : List SFile} (hS : S ∈ C) (hT : T ∈ C) {a : SFile}
    (haS : a ∈ S) (haT : a ∈ T) : S = T := by
  induction C with
  | nil => simp at hS
  | cons U rest ih =>
    rcases List.pairwise_cons.mp h with ⟨hhead, htail⟩
    rcases List.mem_cons.mp hS with rfl | hS'
    · rcases List.mem_cons.mp hT with rfl | hT'
      · rfl
      · exact absurd haT (hhead T hT' a haS)
    · rcases List.mem_cons.mp hT with rfl | hT'
      · exact absurd haS (hhead S hS' a haT)
      · exact ih htail hS' hT'

theorem Extends_refl (C : List (List SFile)) : Extends C C :=
  fun S hS => ⟨S, hS, fun _ h => h⟩

theorem Extends_trans {C₁ C₂ C₃ : List (List SFile)}
    (h₁ : Extends C₁ C₂) (h₂ : Extends C₂ C₃) : Extends C₁ C₃ := by
  intro S hS
  rcases h₁ S hS with ⟨T, hT, hsub⟩
  rcases h₂ T hT with ⟨U, hU, hsub'⟩
  exact ⟨U, hU, fun a ha => hsub' (hsub ha)⟩

theorem Linked_mono {C C' : List (List SFile)} (h : Extends C C')
    {x y : SFile} (hl : Linked C x y) : Linked C' x y := by
  rcases hl with ⟨S, hS, hx, hy⟩
  rcases h S hS with ⟨S', hS', hsub⟩
  exact ⟨S', hS', hsub hx, hsub hy⟩

theorem Linked_symm {C : List (List SFile)} {x y : SFile}
    (h : Linked C x y) : Linked C y x := by
  rcases h with ⟨S, hS, hx, hy⟩
  exact ⟨S, hS, hy, hx⟩

theorem Linked_common {C : List (List SFile)} (hdisj : SetsDisj C)
    {x u v : SFile} (h₁ : Linked C x u) (h₂ : Linked C x v) :
    Linked C u v := by
  rcases h₁ with ⟨S, hS, hxS, huS⟩
  rcases h₂ with ⟨T, hT, hxT, hvT⟩
  have : S = T := SetsDisj_unique hdisj hS hT hxS hxT
  subst this
  exact ⟨S, hS, huS, hvT⟩

theorem mergeInto_none {C : List (List SFile)} {x y : SFile}
    (h : mergeInto C x y = none) : ∀ S ∈ C, x ∉ S ∧ y ∉ S := by
  induction C with
  | nil => simp
  | cons S rest ih =>
    rw [mergeInto] at h
    by_cases hmem : x ∈ S ∨ y ∈ S
    · rw [if_pos hmem] at h
      simp at h
    · rw [if_neg hmem] at h
      intro T hT
      rcases List.mem_cons.mp hT with rfl | hT'
      · exact ⟨fun hx => hmem (Or.inl hx), fun hy => hmem (Or.inr hy)⟩
      · cases hrec : mergeInto rest x y with
        | none => exact ih hrec T hT'
        | some C'' => rw [hrec] at h; simp at h

theorem mergeInto_isSome {C : List (List SFile)} {x y : SFile} {S : List SFile}
    (hS : S ∈ C) (hmem : x ∈ S ∨ y ∈ S) : mergeInto C x y ≠ none := by
  intro hnone
  rcases mergeInto_none hnone S hS with ⟨hx, hy⟩
  rcases hmem with h | h
  · exact hx h
  · exact hy h

theorem mergeInto_some_props {C : List (List SFile)} {x z : SFile}
    {C' : List (List SFile)} (h : mergeInto C x z = some C')
    (hdisj : SetsDisj C) (hhom : Homog C) (hcz : x.content = z.content)
    (hone : (∀ S ∈ C, z ∉ S) ∨ (∀ S ∈ C, x ∉ S)) :
    SetsDisj C' ∧ Homog C' ∧ Extends C C' ∧
      (∃ S' ∈ C', x ∈ S' ∧ z ∈ S') ∧
      (∀ S' ∈ C', ∀ a ∈ S', a = x ∨ a = z ∨ ∃ S ∈ C, a ∈ S) := by
  induction C generalizing C' with
  | nil => simp [mergeInto] at h
  | cons S rest ih =>
    rw [mergeInto] at h
    rcases List.pairwise_cons.mp hdisj with ⟨hhead, htail⟩
    by_cases hmem : x ∈ S ∨ z ∈ S
    · rw [if_pos hmem] at h
      injection h with h
      subst h
      -- the merged set
      have hSsub : S ⊆ (S.insert x).insert z :=
        fun a ha => List.mem_insert_of_mem (List.mem_insert_of_mem ha)
      have hxmem : x ∈ (S.insert x).insert z :=
        List.mem_insert_of_mem (List.mem_insert_self _ _)
      have hzmem : z ∈ (S.insert x).insert z := List.mem_insert_self _ _
      have hmem_cases : ∀ a ∈ (S.insert x).insert z, a = z ∨ a = x ∨ a ∈ S := by
        intro a ha
        rcases List.mem_insert_iff.mp ha with h | h
        · exact Or.inl h
        · rcases List.mem_insert_iff.mp h with h' | h'
          · exact Or.inr (Or.inl h')
          · exact Or.inr (Or.inr h')
      -- the member of {x, z} not witnessed in S lies in no set at all
      have hfresh : ∀ T ∈ S :: rest, (x ∉ T → True) := fun _ _ _ => trivial
      have hother : ∀ T ∈ rest, x ∉ T ∧ z ∉ T := by
        intro T hT
        constructor
        · rcases hone with hz | hx
          · -- z in no set, so the witness is x ∈ S; disjointness moves x out of T
            rcases hmem with hxS | hzS
            · exact fun hxT => hhead T hT x hxS hxT
            · exact absurd hzS (hz S (List.mem_cons_self _ _))
          · exact fun hxT => hx T (List.mem_cons_of_mem _ hT) hxT
        · rcases hone with hz | hx
          · exact fun hzT => hz T (List.mem_cons_of_mem _ hT) hzT
          · rcases hmem with hxS | hzS
            · exact absurd hxS (hx S (List.mem_cons_self _ _))
            · exact fun hzT => hhead T hT z hzS hzT
      -- content of every member of S is x.content
      have hScontent : ∀ a ∈ S, a.content = x.content := by
        intro a ha
        rcases hmem with hxS | hzS
        · exact hhom S (List.mem_cons_self _ _) a ha x hxS
        · rw [hhom S (List.mem_cons_self _ _) a ha z hzS, hcz]
      have hcontent : ∀ a ∈ (S.insert x).insert z, a.content = x.content := by
        intro a ha
        rcases hmem_cases a ha with rfl | rfl | h
        · exact hcz.symm
        · rfl
        · exact hScontent a h
      refine ⟨?_, ?_, ?_, ⟨(S.insert x).insert z, List.mem_cons_self _ _, hxmem, hzmem⟩, ?_⟩
      · refine List.pairwise_cons.mpr ⟨?_, htail⟩
        intro T hT a ha
        rcases hmem_cases a ha with rfl | rfl | h
        · exact (hother T hT).2
        · exact (hother T hT).1
        · exact hhead T hT a h
      · intro T hT a ha b hb
        rcases List.mem_cons.mp hT with rfl | hT'
        · rw [hcontent a ha, hcontent b hb]
        · exact hhom T (List.mem_cons_of_mem _ hT') a ha b hb
      · intro T hT
        rcases List.mem_cons.mp hT with rfl | hT'
        · exact ⟨(T.insert x).insert z, List.mem_cons_self _ _, hSsub⟩
        · exact ⟨T, List.mem_cons_of_mem _ hT', fun _ hh => hh⟩
      · intro T hT a ha
        rcases List.mem_cons.mp hT with rfl | hT'
        · rcases hmem_cases a ha with rfl | rfl | h
          · exact Or.inr (Or.inl rfl)
          · exact Or.inl rfl
          · exact Or.inr (Or.inr ⟨S, List.mem_cons_self _ _, h⟩)
        · exact Or.inr (Or.inr ⟨T, List.mem_cons_of_mem _ hT', ha⟩)
    · rw [if_neg hmem] at h
      cases hrec : mergeInto rest x z with
      | none => rw [hrec] at h; simp at h
      | some C'' =>
        rw [hrec] at h
        simp only [Option.map_some'] at h
        injection h with h
        subst h
        have hone' : (∀ S ∈ rest, z ∉ S) ∨ (∀ S ∈ rest, x ∉ S) := by
          rcases hone with hz | hx
          · exact Or.inl fun T hT => hz T (List.mem_cons_of_mem _ hT)
          · exact Or.inr fun T hT => hx T (List.mem_cons_of_mem _ hT)
        have hhom' : Homog rest := fun T hT => hhom T (List.mem_cons_of_mem _ hT)
        obtain ⟨hdisj'', hhom'', hext'', ⟨W, hW, hxW, hzW⟩, hmem''⟩ :=
          ih hrec htail hhom' hone'
        have hxS : x ∉ S := fun hx => hmem (Or.inl hx)
        have hzS : z ∉ S := fun hz => hmem (Or.inr hz)
        refine ⟨?_, ?_, ?_, ⟨W, List.mem_cons_of_mem _ hW, hxW, hzW⟩, ?_⟩
        · refine List.pairwise_cons.mpr ⟨?_, hdisj''⟩
          intro T hT a haS
          intro haT
          rcases hmem'' T hT a haT with rfl | rfl | ⟨T₀, hT₀, haT₀⟩
          · exact hxS haS
          · exact hzS haS
          · exact hhead T₀ hT₀ a haS haT₀
        · intro T hT a ha b hb
          rcases List.mem_cons.mp hT with rfl | hT'
          · exact hhom T (List.mem_cons_self _ _) a ha b hb
          · exact hhom'' T hT' a ha b hb
        · intro T hT
          rcases List.mem_cons.mp hT with rfl | hT'
          · exact ⟨T, List.mem_cons_self _ _, fun _ hh => hh⟩
          · rcases hext'' T hT' with ⟨U, hU, hsub⟩
            exact ⟨U, List.mem_cons_of_mem _ hU, hsub⟩
        · intro T hT a ha
          rcases List.mem_cons.mp hT with rfl | hT'
          · exact Or.inr (Or.inr ⟨T, List.mem_cons_self _ _, ha⟩)
          · rcases hmem'' T hT' a ha with rfl | rfl | ⟨T₀, hT₀, haT₀⟩
            · exact Or.inl rfl
            · exact Or.inr (Or.inl rfl)
            · exact Or.inr (Or.inr ⟨T₀, List.mem_cons_of_mem _ hT₀, haT₀⟩)

theorem starFold_nil (x : SFile) (s : P3State) : starFold x [] s = s := rfl

theorem starFold_cons (x z : SFile) (rest : List SFile) (s : P3State) :
    starFold x (z :: rest) s = starFold x rest (p3step s (x, z)) := by
  simp [starFold]

theorem combPairs_foldl (x : SFile) (xs : List SFile) (s : P3State) :
    (combPairs (x :: xs)).foldl p3step s =
      (combPairs xs).foldl p3step (starFold x xs s) := by
  show ((xs.map fun y => (x, y)) ++ combPairs xs).foldl p3step s = _
  rw [List.foldl_append]
  rfl


theorem star_phase (x : SFile) (zs : List SFile) :
    ∀ s : P3State, x ∉ zs → zs.Nodup →
    Homog s.C → SetsDisj s.C →
    (∀ a ∈ s.checked, ∃ S ∈ s.C, a ∈ S) →
    (∀ S ∈ s.C, ∀ a ∈ S, (a = x ∨ a ∈ zs) → a ∈ s.checked) →
    (∀ z ∈ zs, z ∈ s.checked → z.content = x.content → x ∈ s.checked →
      Linked s.C x z) →
    (∀ z ∈ zs, z.content = x.content → z ∈ s.checked → x ∈ s.checked) →
    (∀ u ∈ zs, ∀ v ∈ zs, u ∈ s.checked → v ∈ s.checked →
      u.content = v.content → Linked s.C u v) →
    Homog (starFold x zs s).C ∧ SetsDisj (starFold x zs s).C ∧
    (∀ a ∈ (starFold x zs s).checked, ∃ S ∈ (starFold x zs s).C, a ∈ S) ∧
    (∀ S ∈ (starFold x zs s).C, ∀ a ∈ S, (a = x ∨ a ∈ zs) →
      a ∈ (starFold x zs s).checked) ∧
    (∀ z ∈ zs, z.content = x.content → Linked (starFold x zs s).C x z) ∧
    (∀ u ∈ zs, ∀ v ∈ zs, u ∈ (starFold x zs s).checked →
      v ∈ (starFold x zs s).checked → u.content = v.content →
      Linked (starFold x zs s).C u v) ∧
    Extends s.C (starFold x zs s).C ∧
    (∀ S' ∈ (starFold x zs s).C, ∀ a ∈ S',
      a = x ∨ a ∈ zs ∨ ∃ S ∈ s.C, a ∈ S) ∧
    (∀ a ∈ (starFold x zs s).checked,
      a ∈ s.checked ∨ a = x ∨ (a ∈ zs ∧ a.content = x.content)) ∧
    (∀ a ∈ s.checked, a ∈ (starFold x zs s).checked) := by
  induction zs with
  | nil =>
    intro s _ _ hhom hdisj hcm hN _ _ _
    rw [starFold_nil]
    refine ⟨hhom, hdisj, hcm, hN, ?_, ?_, Extends_refl _, ?_, ?_, ?_⟩
    · intro z hz
      simp at hz
    · intro u hu
      simp at hu
    · intro S' hS' a ha
      exact Or.inr (Or.inr ⟨S', hS', ha⟩)
    · intro a ha
      exact Or.inl ha
    · intro a ha
      exact ha
  | cons z rest ih =>
    intro s hxz hnodup hhom hdisj hcm hN hK hB hL
    have hxz' : x ∉ rest := fun h => hxz (List.mem_cons_of_mem _ h)
    have hxnez : x ≠ z := fun h => hxz (h ▸ List.mem_cons_self _ _)
    have hznr : z ∉ rest := (List.nodup_cons.mp hnodup).1
    have hnodup' : rest.Nodup := (List.nodup_cons.mp hnodup).2
    rw [starFold_cons]
    by_cases hskip : x ∈ s.checked ∧ z ∈ s.checked
    · -- both already checked: the step is a no-op
      have hs'eq : p3step s (x, z) = s := by
        rw [p3step, if_pos hskip]
      rw [hs'eq]
      obtain ⟨ihhom, ihdisj, ihcm, ihN, ihC5, ihL, ihext, ihmem, ihgrow, ihmono⟩ :=
        ih s hxz' hnodup' hhom hdisj hcm
          (fun S hS a ha hc => hN S hS a ha (hc.imp id (List.mem_cons_of_mem _)))
          (fun z' hz' => hK z' (List.mem_cons_of_mem _ hz'))
          (fun z' hz' => hB z' (List.mem_cons_of_mem _ hz'))
          (fun u hu v hv =>
            hL u (List.mem_cons_of_mem _ hu) v (List.mem_cons_of_mem _ hv))
      have hstat : ∀ w, w ∈ z :: rest → w ∈ (starFold x rest s).checked →
          w ∈ s.checked ∨ (w ∈ rest ∧ w.content = x.content) := by
        intro w hwmem hwch
        rcases ihgrow w hwch with h | h | h
        · exact Or.inl h
        · exact absurd (h ▸ hwmem) hxz
        · exact Or.inr h
      have hlink_to_x : ∀ w, w ∈ z :: rest →
          w ∈ (starFold x rest s).checked → w.content = x.content →
          Linked (starFold x rest s).C x w := by
        intro w hwmem hwch hcwx
        rcases hstat w hwmem hwch with hwchs | ⟨hw', _⟩
        · have hxch : x ∈ s.checked := hB w hwmem hcwx hwchs
          exact Linked_mono ihext (hK w hwmem hwchs hcwx hxch)
        · exact ihC5 w hw' hcwx
      have hC5z : ∀ w ∈ z :: rest, w.content = x.content →
          Linked (starFold x rest s).C x w := by
        intro w hwmem hcwx
        rcases List.mem_cons.mp hwmem with heq | hw'
        · have : Linked s.C x w := by
            rw [heq]
            exact hK z (List.mem_cons_self _ _) hskip.2 (by rw [← heq]; exact hcwx)
              hskip.1
          exact Linked_mono ihext this
        · exact ihC5 w hw' hcwx
      refine ⟨ihhom, ihdisj, ihcm, ?_, hC5z, ?_, ihext, ?_, ?_, ihmono⟩
      · intro S' hS' a ha hcase
        rcases hcase with h | hmem
        · exact ihN S' hS' a ha (Or.inl h)
        · rcases ihmem S' hS' a ha with h | h | ⟨S, hS, haS⟩
          · exact ihN S' hS' a ha (Or.inl h)
          · exact ihN S' hS' a ha (Or.inr h)
          · exact ihmono a (hN S hS a haS (Or.inr hmem))
      · intro u hu v hv hcu hcv hcuv
        by_cases hcux : u.content = x.content
        · exact Linked_common ihdisj (hlink_to_x u hu hcu hcux)
            (hlink_to_x v hv hcv (hcuv.symm.trans hcux))
        · have huold : u ∈ s.checked := by
            rcases hstat u hu hcu with h | h
            · exact h
            · exact absurd h.2 hcux
          have hvold : v ∈ s.checked := by
            rcases hstat v hv hcv with h | h
            · exact h
            · exact absurd (hcuv.trans h.2) hcux
          exact Linked_mono ihext (hL u hu v hv huold hvold hcuv)
      · intro S'' hS'' a ha
        rcases ihmem S'' hS'' a ha with h | h | h
        · exact Or.inl h
        · exact Or.inr (Or.inl (List.mem_cons_of_mem _ h))
        · exact Or.inr (Or.inr h)
      · intro a ha
        rcases ihgrow a ha with h | h | h
        · exact Or.inl h
        · exact Or.inr (Or.inl h)
        · exact Or.inr (Or.inr ⟨List.mem_cons_of_mem _ h.1, h.2⟩)
    · by_cases hident : x.content = z.content
      · -- genuine merge step
        have hone : (∀ S ∈ s.C, z ∉ S) ∨ (∀ S ∈ s.C, x ∉ S) := by
          by_cases hxch : x ∈ s.checked
          · have hzch : z ∉ s.checked := fun h => hskip ⟨hxch, h⟩
            exact Or.inl fun S hS hzS =>
              hzch (hN S hS z hzS (Or.inr (List.mem_cons_self _ _)))
          · exact Or.inr fun S hS hxS => hxch (hN S hS x hxS (Or.inl rfl))
        have hident' : files_are_identical x.content z.content = true := by
          simp [files_are_identical, hident]
        obtain ⟨C', hstep, hdisj', hhom', hext', ⟨W, hW, hxW, hzW⟩, hmem'⟩ :
            ∃ C', p3step s (x, z) = ⟨C', (s.checked.insert x).insert z⟩ ∧
              SetsDisj C' ∧ Homog C' ∧ Extends s.C C' ∧
              (∃ W ∈ C', x ∈ W ∧ z ∈ W) ∧
              (∀ S' ∈ C', ∀ a ∈ S', a = x ∨ a = z ∨ ∃ S ∈ s.C, a ∈ S) := by
          cases hmerge : mergeInto s.C x z with
          | some C' =>
            obtain ⟨h1, h2, h3, h4, h5⟩ :=
              mergeInto_some_props hmerge hdisj hhom hident hone
            refine ⟨C', ?_, h1, h2, h3, h4, h5⟩
            rw [p3step, if_neg hskip, if_pos hident', hmerge]
          | none =>
            have hfree := mergeInto_none hmerge
            refine ⟨s.C ++ [[x, z]], ?_, ?_, ?_, ?_, ?_, ?_⟩
            · rw [p3step, if_neg hskip, if_pos hident', hmerge]
            · rw [SetsDisj, List.pairwise_append]
              refine ⟨hdisj, by simp, ?_⟩
              intro S hS T hT a haS haT
              rcases List.mem_singleton.mp hT with rfl
              rcases List.mem_cons.mp haT with rfl | h
              · exact (hfree S hS).1 haS
              · rcases List.mem_singleton.mp h with rfl
                exact (hfree S hS).2 haS
            · intro S hS a ha b hb
              rcases List.mem_append.mp hS with h | h
              · exact hhom S h a ha b hb
              · rcases List.mem_singleton.mp h with rfl
                have hc : ∀ w ∈ [x, z], w.content = x.content := by
                  intro w hw
                  rcases List.mem_cons.mp hw with rfl | hw'
                  · rfl
                  · rcases List.mem_singleton.mp hw' with rfl
                    exact hident.symm
                rw [hc a ha, hc b hb]
            · intro S hS
              exact ⟨S, List.mem_append_left _ hS, fun _ h => h⟩
            · exact ⟨[x, z], List.mem_append_right _ (List.mem_singleton.mpr rfl),
                List.mem_cons_self _ _,
                List.mem_cons_of_mem _ (List.mem_singleton.mpr rfl)⟩
            · intro S' hS' a ha
              rcases List.mem_append.mp hS' with h | h
              · exact Or.inr (Or.inr ⟨S', h, ha⟩)
              · rcases List.mem_singleton.mp h with rfl
                rcases List.mem_cons.mp ha with rfl | ha'
                · exact Or.inl rfl
                · rcases List.mem_singleton.mp ha' with rfl
                  exact Or.inr (Or.inl rfl)
        rw [hstep]
        have hxch' : x ∈ ((s.checked.insert x).insert z) :=
          List.mem_insert_of_mem (List.mem_insert_self _ _)
        have hzch' : z ∈ ((s.checked.insert x).insert z) :=
          List.mem_insert_self _ _
        have hchsub : ∀ a ∈ s.checked, a ∈ ((s.checked.insert x).insert z) :=
          fun a ha => List.mem_insert_of_mem (List.mem_insert_of_mem ha)
        have hchcases : ∀ a ∈ ((s.checked.insert x).insert z),
            a = z ∨ a = x ∨ a ∈ s.checked := by
          intro a ha
          rcases List.mem_insert_iff.mp ha with h | h
          · exact Or.inl h
          · rcases List.mem_insert_iff.mp h with h' | h'
            · exact Or.inr (Or.inl h')
            · exact Or.inr (Or.inr h')
        obtain ⟨ihhom, ihdisj, ihcm, ihN, ihC5, ihL, ihext, ihmem, ihgrow, ihmono⟩ :=
          ih ⟨C', (s.checked.insert x).insert z⟩ hxz' hnodup' hhom' hdisj'
            (by intro a ha
                rcases hchcases a ha with h | h | h
                · exact ⟨W, hW, by rw [h]; exact hzW⟩
                · exact ⟨W, hW, by rw [h]; exact hxW⟩
                · rcases hcm a h with ⟨S, hS, haS⟩
                  rcases hext' S hS with ⟨S', hS', hsub⟩
                  exact ⟨S', hS', hsub haS⟩)
            (by intro S' hS' a ha hcase
                rcases hmem' S' hS' a ha with h | h | ⟨S, hS, haS⟩
                · rw [h]; exact hxch'
                · rw [h]; exact hzch'
                · exact hchsub a (hN S hS a haS (hcase.imp id (List.mem_cons_of_mem _))))
            (by intro z' hz' hz'ch hcz' _
                have hz'old : z' ∈ s.checked := by
                  rcases hchcases z' hz'ch with h | h | h
                  · exact absurd (h ▸ hz') hznr
                  · exact absurd (h ▸ hz') hxz'
                  · exact h
                have hxold : x ∈ s.checked :=
                  hB z' (List.mem_cons_of_mem _ hz') hcz' hz'old
                exact Linked_mono hext'
                  (hK z' (List.mem_cons_of_mem _ hz') hz'old hcz' hxold))
            (by intro z' _ _ _
                exact hxch')
            (by intro u hu v hv hcu hcv hcuv
                have huold : u ∈ s.checked := by
                  rcases hchcases u hcu with h | h | h
                  · exact absurd (h ▸ hu) hznr
                  · exact absurd (h ▸ hu) hxz'
                  · exact h
                have hvold : v ∈ s.checked := by
                  rcases hchcases v hcv with h | h | h
                  · exact absurd (h ▸ hv) hznr
                  · exact absurd (h ▸ hv) hxz'
                  · exact h
                exact Linked_mono hext'
                  (hL u (List.mem_cons_of_mem _ hu) v (List.mem_cons_of_mem _ hv)
                    huold hvold hcuv))
        have hlinkz :
            Linked (starFold x rest ⟨C', (s.checked.insert x).insert z⟩).C x z :=
          Linked_mono ihext ⟨W, hW, hxW, hzW⟩
        have hC5out : ∀ w ∈ z :: rest, w.content = x.content →
            Linked (starFold x rest ⟨C', (s.checked.insert x).insert z⟩).C x w := by
          intro w hwmem hcwx
          rcases List.mem_cons.mp hwmem with heq | hw'
          · rw [heq]
            exact hlinkz
          · exact ihC5 w hw' hcwx
        refine ⟨ihhom, ihdisj, ihcm, ?_, hC5out, ?_,
          Extends_trans hext' ihext, ?_, ?_, ?_⟩
        · intro S'' hS'' a ha hcase
          rcases hcase with h | hmem
          · exact ihN S'' hS'' a ha (Or.inl h)
          · rcases ihmem S'' hS'' a ha with h | h | ⟨S', hS', haS'⟩
            · exact ihN S'' hS'' a ha (Or.inl h)
            · exact ihN S'' hS'' a ha (Or.inr h)
            · rcases hmem' S' hS' a haS' with h | h | ⟨S, hS, haS⟩
              · exact ihmono a (by rw [h]; exact hxch')
              · exact ihmono a (by rw [h]; exact hzch')
              · exact ihmono a
                  (hchsub a (hN S hS a haS (Or.inr hmem)))
        · intro u hu v hv hcu hcv hcuv
          by_cases hcux : u.content = x.content
          · exact Linked_common ihdisj (hC5out u hu hcux)
              (hC5out v hv (hcuv.symm.trans hcux))
          · have hu' : u ∈ rest := by
              rcases List.mem_cons.mp hu with heq | h
              · exact absurd (by rw [heq]; exact hident.symm) hcux
              · exact h
            have hv' : v ∈ rest := by
              rcases List.mem_cons.mp hv with heq | h
              · refine absurd ?_ hcux
                rw [hcuv, heq]
                exact hident.symm
              · exact h
            exact ihL u hu' v hv' hcu hcv hcuv
        · intro S'' hS'' a ha
          rcases ihmem S'' hS'' a ha with h | h | ⟨S', hS', haS'⟩
          · exact Or.inl h
          · exact Or.inr (Or.inl (List.mem_cons_of_mem _ h))
          · rcases hmem' S' hS' a haS' with h | h | ⟨S, hS, haS⟩
            · exact Or.inl h
            · exact Or.inr (Or.inl (by rw [h]; exact List.mem_cons_self _ _))
            · exact Or.inr (Or.inr ⟨S, hS, haS⟩)
        · intro a ha
          rcases ihgrow a ha with h | h | h
          · rcases hchcases a h with h' | h' | h'
            · exact Or.inr (Or.inr ⟨by rw [h']; exact List.mem_cons_self _ _,
                by rw [h']; exact hident.symm⟩)
            · exact Or.inr (Or.inl h')
            · exact Or.inl h'
          · exact Or.inr (Or.inl h)
          · exact Or.inr (Or.inr ⟨List.mem_cons_of_mem _ h.1, h.2⟩)
        · intro a ha
          exact ihmono a (hchsub a ha)
      · -- contents differ: the step is a no-op
        have hident' : files_are_identical x.content z.content = false := by
          simp [files_are_identical, hident]
        have hs'eq : p3step s (x, z) = s := by
          rw [p3step, if_neg hskip, hident']
          simp
        rw [hs'eq]
        obtain ⟨ihhom, ihdisj, ihcm, ihN, ihC5, ihL, ihext, ihmem, ihgrow, ihmono⟩ :=
          ih s hxz' hnodup' hhom hdisj hcm
            (fun S hS a ha hc => hN S hS a ha (hc.imp id (List.mem_cons_of_mem _)))
            (fun z' hz' => hK z' (List.mem_cons_of_mem _ hz'))
            (fun z' hz' => hB z' (List.mem_cons_of_mem _ hz'))
            (fun u hu v hv =>
              hL u (List.mem_cons_of_mem _ hu) v (List.mem_cons_of_mem _ hv))
        have hstat : ∀ w, w ∈ z :: rest → w ∈ (starFold x rest s).checked →
            w ∈ s.checked ∨ (w ∈ rest ∧ w.content = x.content) := by
          intro w hwmem hwch
          rcases ihgrow w hwch with h | h | h
          · exact Or.inl h
          · exact absurd (h ▸ hwmem) hxz
          · exact Or.inr h
        have hlink_to_x : ∀ w, w ∈ z :: rest →
            w ∈ (starFold x rest s).checked → w.content = x.content →
            Linked (starFold x rest s).C x w := by
          intro w hwmem hwch hcwx
          rcases hstat w hwmem hwch with hwchs | ⟨hw', _⟩
          · have hxch : x ∈ s.checked := hB w hwmem hcwx hwchs
            exact Linked_mono ihext (hK w hwmem hwchs hcwx hxch)
          · exact ihC5 w hw' hcwx
        have hC5out : ∀ w ∈ z :: rest, w.content = x.content →
            Linked (starFold x rest s).C x w := by
          intro w hwmem hcwx
          rcases List.mem_cons.mp hwmem with heq | hw'
          · refine absurd ?_ hident
            rw [← heq]
            exact hcwx.symm
          · exact ihC5 w hw' hcwx
        refine ⟨ihhom, ihdisj, ihcm, ?_, hC5out, ?_, ihext, ?_, ?_, ihmono⟩
        · intro S' hS' a ha hcase
          rcases hcase with h | hmem
          · exact ihN S' hS' a ha (Or.inl h)
          · rcases ihmem S' hS' a ha with h | h | ⟨S, hS, haS⟩
            · exact ihN S' hS' a ha (Or.inl h)
            · exact ihN S' hS' a ha (Or.inr h)
            · exact ihmono a (hN S hS a haS (Or.inr hmem))
        · intro u hu v hv hcu hcv hcuv
          by_cases hcux : u.content = x.content
          · exact Linked_common ihdisj (hlink_to_x u hu hcu hcux)
              (hlink_to_x v hv hcv (hcuv.symm.trans hcux))
          · have huold : u ∈ s.checked := by
              rcases hstat u hu hcu with h | h
              · exact h
              · exact absurd h.2 hcux
            have hvold : v ∈ s.checked := by
              rcases hstat v hv hcv with h | h
              · exact h
              · exact absurd (hcuv.trans h.2) hcux
            exact Linked_mono ihext (hL u hu v hv huold hvold hcuv)
        · intro S'' hS'' a ha
          rcases ihmem S'' hS'' a ha with h | h | h
          · exact Or.inl h
          · exact Or.inr (Or.inl (List.mem_cons_of_mem _ h))
          · exact Or.inr (Or.inr h)
        · intro a ha
          rcases ihgrow a ha with h | h | h
          · exact Or.inl h
          · exact Or.inr (Or.inl h)
          · exact Or.inr (Or.inr ⟨List.mem_cons_of_mem _ h.1, h.2⟩)

theorem processPairs_main (g : List SFile) :
    ∀ s : P3State, g.Nodup →
    Homog s.C → SetsDisj s.C →
    (∀ a ∈ s.checked, ∃ S ∈ s.C, a ∈ S) →
    (∀ S ∈ s.C, ∀ a ∈ S, a ∈ g → a ∈ s.checked) →
    (∀ u ∈ g, ∀ v ∈ g, u ∈ s.checked → v ∈ s.checked →
      u.content = v.content → Linked s.C u v) →
    (∀ u ∈ g, ∀ v ∈ g, u.content = v.content →
      (u ∈ s.checked ↔ v ∈ s.checked)) →
    Homog ((combPairs g).foldl p3step s).C ∧
    SetsDisj ((combPairs g).foldl p3step s).C ∧
    Extends s.C ((combPairs g).foldl p3step s).C ∧
    (∀ S' ∈ ((combPairs g).foldl p3step s).C, ∀ a ∈ S',
      a ∈ g ∨ ∃ S ∈ s.C, a ∈ S) ∧
    (∀ A ∈ g, ∀ B ∈ g, A ≠ B → A.content = B.content →
      Linked ((combPairs g).foldl p3step s).C A B) := by
  induction g with
  | nil =>
    intro s _ hhom hdisj _ _ _ _
    refine ⟨hhom, hdisj, Extends_refl _, ?_, ?_⟩
    · intro S' hS' a ha
      exact Or.inr ⟨S', hS', ha⟩
    · intro A hA
      simp at hA
  | cons x xs ih =>
    intro s hnodup hhom hdisj hcm hN hL hE
    have hxnxs : x ∉ xs := (List.nodup_cons.mp hnodup).1
    have hnodup' : xs.Nodup := (List.nodup_cons.mp hnodup).2
    rw [combPairs_foldl]
    obtain ⟨shom, sdisj, scm, sN, sC5, sL, sext, smem, sgrow, smono⟩ :=
      star_phase x xs s hxnxs hnodup' hhom hdisj hcm
        (fun S hS a ha hc => hN S hS a ha (by
          rcases hc with h | h
          · rw [h]; exact List.mem_cons_self _ _
          · exact List.mem_cons_of_mem _ h))
        (fun z hz hzch hcz hxch =>
          hL x (List.mem_cons_self _ _) z (List.mem_cons_of_mem _ hz)
            hxch hzch hcz.symm)
        (fun z hz hcz hzch =>
          (hE z (List.mem_cons_of_mem _ hz) x (List.mem_cons_self _ _) hcz).mp hzch)
        (fun u hu v hv =>
          hL u (List.mem_cons_of_mem _ hu) v (List.mem_cons_of_mem _ hv))
    obtain ⟨fhom, fdisj, fext, fmem, fLinked⟩ :=
      ih (starFold x xs s) hnodup' shom sdisj scm
        (fun S hS a ha hax => sN S hS a ha (Or.inr hax))
        sL
        (by
          intro u hu v hv hcuv
          by_cases hclx : u.content = x.content
          · have hu1 : u ∈ (starFold x xs s).checked := by
              rcases sC5 u hu hclx with ⟨S, hS, _, huS⟩
              exact sN S hS u huS (Or.inr hu)
            have hv1 : v ∈ (starFold x xs s).checked := by
              rcases sC5 v hv (hcuv.symm.trans hclx) with ⟨S, hS, _, hvS⟩
              exact sN S hS v hvS (Or.inr hv)
            exact iff_of_true hu1 hv1
          · have hvnx : ¬v.content = x.content := fun h => hclx (hcuv.trans h)
            have hustat : u ∈ (starFold x xs s).checked ↔ u ∈ s.checked := by
              constructor
              · intro h
                rcases sgrow u h with h' | h' | h'
                · exact h'
                · exact absurd (h' ▸ hu) hxnxs
                · exact absurd h'.2 hclx
              · exact smono u
            have hvstat : v ∈ (starFold x xs s).checked ↔ v ∈ s.checked := by
              constructor
              · intro h
                rcases sgrow v h with h' | h' | h'
                · exact h'
                · exact absurd (h' ▸ hv) hxnxs
                · exact absurd h'.2 hvnx
              · exact smono v
            rw [hustat, hvstat]
            exact hE u (List.mem_cons_of_mem _ hu) v (List.mem_cons_of_mem _ hv) hcuv)
    refine ⟨fhom, fdisj, Extends_trans sext fext, ?_, ?_⟩
    · intro S'' hS'' a ha
      rcases fmem S'' hS'' a ha with h | ⟨S₁, hS₁, haS₁⟩
      · exact Or.inl (List.mem_cons_of_mem _ h)
      · rcases smem S₁ hS₁ a haS₁ with h | h | h
        · exact Or.inl (by rw [h]; exact List.mem_cons_self _ _)
        · exact Or.inl (List.mem_cons_of_mem _ h)
        · exact Or.inr h
    · intro A hA B hB hAB hclass
      rcases List.mem_cons.mp hA with heqA | hA'
      · rcases List.mem_cons.mp hB with heqB | hB'
        · exact absurd (heqA.trans heqB.symm) hAB
        · have hBx : B.content = x.content := by
            rw [← heqA]
            exact hclass.symm
          have : Linked ((combPairs xs).foldl p3step (starFold x xs s)).C x B :=
            Linked_mono fext (sC5 B hB' hBx)
          rw [heqA]
          exact this
      · rcases List.mem_cons.mp hB with heqB | hB'
        · have hAx : A.content = x.content := by
            rw [← heqB]
            exact hclass
          have : Linked ((combPairs xs).foldl p3step (starFold x xs s)).C x A :=
            Linked_mono fext (sC5 A hA' hAx)
          rw [heqB]
          exact Linked_symm this
        · exact fLinked A hA' B hB' hAB hclass

theorem phase3_groups (groups : List (List SFile)) :
    ∀ C₀ : List (List SFile),
    groups.Pairwise (fun g h => ∀ a ∈ g, a ∉ h) →
    (∀ g ∈ groups, g.Nodup) →
    Homog C₀ → SetsDisj C₀ →
    (∀ S ∈ C₀, ∀ a ∈ S, ∀ g ∈ groups, a ∉ g) →
    Homog (groups.foldl processGroup C₀) ∧
    SetsDisj (groups.foldl processGroup C₀) ∧
    Extends C₀ (groups.foldl processGroup C₀) ∧
    (∀ S ∈ groups.foldl processGroup C₀, ∀ a ∈ S,
      (∃ g ∈ groups, a ∈ g) ∨ ∃ S₀ ∈ C₀, a ∈ S₀) ∧
    (∀ g ∈ groups, ∀ A ∈ g, ∀ B ∈ g, A ≠ B → A.content = B.content →
      Linked (groups.foldl processGroup C₀) A B) := by
  induction groups with
  | nil =>
    intro C₀ _ _ hhom hdisj _
    refine ⟨hhom, hdisj, Extends_refl _, ?_, ?_⟩
    · intro S hS a ha
      exact Or.inr ⟨S, hS, ha⟩
    · intro g hg
      simp at hg
  | cons g gs ihg =>
    intro C₀ hpw hnodups hhom hdisj hfree
    rcases List.pairwise_cons.mp hpw with ⟨hhead, htail⟩
    obtain ⟨h1, h2, h3, h4, h5⟩ :=
      processPairs_main g ⟨C₀, []⟩ (hnodups g (List.mem_cons_self _ _)) hhom hdisj
        (by intro a ha; simp at ha)
        (by intro S hS a haS hag
            exact absurd hag (hfree S hS a haS g (List.mem_cons_self _ _)))
        (by intro u _ v _ hu; simp at hu)
        (by intro u _ v _ _
            exact iff_of_false (by simp) (by simp))
    rw [List.foldl_cons]
    obtain ⟨ihhom, ihdisj, ihext, ihmem, ihLinked⟩ :=
      ihg (processGroup C₀ g) htail
        (fun g' hg' => hnodups g' (List.mem_cons_of_mem _ hg'))
        h1 h2
        (by
          intro S hS a haS g' hg'
          rcases h4 S hS a haS with h | ⟨S₀, hS₀, haS₀⟩
          · exact hhead g' hg' a h
          · exact hfree S₀ hS₀ a haS₀ g' (List.mem_cons_of_mem _ hg'))
    refine ⟨ihhom, ihdisj, Extends_trans h3 ihext, ?_, ?_⟩
    · intro S hS a ha
      rcases ihmem S hS a ha with ⟨g', hg', hag'⟩ | ⟨S₁, hS₁, haS₁⟩
      · exact Or.inl ⟨g', List.mem_cons_of_mem _ hg', hag'⟩
      · rcases h4 S₁ hS₁ a haS₁ with h | h
        · exact Or.inl ⟨g, List.mem_cons_self _ _, h⟩
        · exact Or.inr h
    · intro g' hg' A hA B hB hAB hclass
      rcases List.mem_cons.mp hg' with rfl | hg''
      · exact Linked_mono ihext (h5 A hA B hB hAB hclass)
      · exact ihLinked g' hg'' A hA B hB hAB hclass

/-! ### Structure of the likely-duplicate groups -/

theorem one_lt_length_of_mem_mem {α : Type} {l : List α} {a b : α}
    (ha : a ∈ l) (hb : b ∈ l) (hab : a ≠ b) : 1 < l.length := by
  cases l with
  | nil => simp at ha
  | cons x xs =>
    cases xs with
    | nil =>
      rcases List.mem_singleton.mp ha with rfl
      rcases List.mem_singleton.mp hb with rfl
      exact absurd rfl hab
    | cons y ys => simp [Nat.lt_add_of_pos_left]

theorem groupByKey_pairwise {α κ : Type} [DecidableEq κ] (f : α → κ)
    (l : List α) :
    (groupByKey f l).Pairwise (fun kg kh => ∀ a ∈ kg.2, a ∉ kh.2) := by
  rw [groupByKey, List.pairwise_map]
  refine (nodup_firstKeys (l.map f)).imp ?_
  intro k k' hkk' a ha ha'
  have h1 : f a = k := by
    have := (List.mem_filter.mp ha).2
    simpa using this
  have h2 : f a = k' := by
    have := (List.mem_filter.mp ha').2
    simpa using this
  exact hkk' (h1 ▸ h2)

theorem pairwise_flatMap {α β : Type} {R : β → β → Prop} {f : α → List β}
    {l : List α} (h1 : ∀ a ∈ l, (f a).Pairwise R)
    (h2 : l.Pairwise (fun a b => ∀ x ∈ f a, ∀ y ∈ f b, R x y)) :
    (l.flatMap f).Pairwise R := by
  induction l with
  | nil => simp
  | cons a as ih =>
    rw [List.flatMap_cons, List.pairwise_append]
    rcases List.pairwise_cons.mp h2 with ⟨hhead, htail⟩
    refine ⟨h1 a (List.mem_cons_self _ _), ih (fun b hb => h1 b (List.mem_cons_of_mem _ hb)) htail, ?_⟩
    intro x hx y hy
    rcases List.mem_flatMap.mp hy with ⟨b, hb, hyb⟩
    exact hhead b hb x hx y hyb

theorem mem_filter_keyEq {α κ : Type} [DecidableEq κ] {f : α → κ} {l : List α}
    {x y : α} (hy : y ∈ l) (hkey : f y = f x) :
    y ∈ l.filter (fun z => f z == f x) :=
  List.mem_filter.mpr ⟨hy, by simp [hkey]⟩

theorem mem_likely_dupes {fs : List SFile} {g : List SFile}
    (hg : g ∈ likely_dupes fs) :
    g.Sublist (dff_scanned fs) ∧ 1 < g.length := by
  rcases List.mem_flatMap.mp hg with ⟨sg, hsg, hgin⟩
  rcases List.mem_filter.mp hgin with ⟨hgmap, hglen⟩
  rcases List.mem_map.mp hgmap with ⟨⟨e, g₂⟩, hmem2, heq⟩
  obtain rfl : g₂ = g := heq
  rcases mem_groupByKey hmem2 with ⟨hgeq, -⟩
  rcases List.mem_filter.mp hsg with ⟨hsgmem, -⟩
  rcases mem_groupByKey hsgmem with ⟨hbucket, -⟩
  constructor
  · rw [hgeq]
    refine (List.filter_sublist _).trans ?_
    rw [hbucket]
    exact List.filter_sublist _
  · simpa using hglen

theorem likely_dupes_nodup {fs : List SFile} (hnd : fs.Nodup) :
    ∀ g ∈ likely_dupes fs, g.Nodup := by
  intro g hg
  exact List.Nodup.sublist (mem_likely_dupes hg).1 (hnd.filter _)

theorem likely_dupes_pairwise {fs : List SFile} :
    (likely_dupes fs).Pairwise (fun g h => ∀ a ∈ g, a ∉ h) := by
  refine pairwise_flatMap ?_ ?_
  · intro sg _
    refine List.Pairwise.sublist (List.filter_sublist _) ?_
    rw [List.pairwise_map]
    exact (groupByKey_pairwise edgeKey sg.2).imp (fun h => h)
  · have hpot : (potential_dupes_by_size fs).Pairwise
        (fun sg sh => ∀ a ∈ sg.2, a ∉ sh.2) := by
      unfold potential_dupes_by_size files_by_size
      exact List.Pairwise.sublist (List.filter_sublist _)
        (groupByKey_pairwise (fun f => f.content.length) (dff_scanned fs))
    refine hpot.imp ?_
    intro sg sh hdisj g hgmem h hhmem a hag hah
    have hsub : ∀ (t : Nat × List SFile) (g' : List SFile),
        g' ∈ ((groupByKey edgeKey t.2).map Prod.snd).filter
          (fun g0 => decide (1 < g0.length)) → ∀ b ∈ g', b ∈ t.2 := by
      intro t g' hg' b hb
      rcases List.mem_filter.mp hg' with ⟨hg'map, -⟩
      rcases List.mem_map.mp hg'map with ⟨⟨e, g₂⟩, hmem2, heq⟩
      obtain rfl : g₂ = g' := heq
      rcases mem_groupByKey hmem2 with ⟨hgeq, -⟩
      rw [hgeq] at hb
      exact (List.mem_filter.mp hb).1
    exact hdisj a (hsub sg g hgmem a hag) (hsub sh h hhmem a hah)

theorem likely_same_group {fs : List SFile} {A B : SFile}
    (hA : A ∈ fs) (hB : B ∈ fs) (hAB : A ≠ B)
    (hcontent : A.content = B.content) (hsize : 0 < A.content.length) :
    ∃ g ∈ likely_dupes fs, A ∈ g ∧ B ∈ g := by
  have hAscan : A ∈ dff_scanned fs :=
    List.mem_filter.mpr ⟨hA, by simpa using hsize⟩
  have hBscan : B ∈ dff_scanned fs := by
    refine List.mem_filter.mpr ⟨hB, ?_⟩
    simp only [← hcontent]
    simpa using hsize
  obtain ⟨hbucket_mem, hAbucket⟩ :=
    groupByKey_complete (f := fun f => f.content.length) hAscan
  have hBbucket := mem_filter_keyEq (f := fun f => f.content.length)
    (l := dff_scanned fs) (x := A) hBscan (by simp [hcontent])
  have hblen := one_lt_length_of_mem_mem hAbucket hBbucket hAB
  obtain ⟨hsub_mem, hAsub⟩ := groupByKey_complete (f := edgeKey) hAbucket
  have hBsub := mem_filter_keyEq (f := edgeKey) (x := A) hBbucket
    (by simp [edgeKey, hcontent])
  have hslen := one_lt_length_of_mem_mem hAsub hBsub hAB
  refine ⟨_, ?_, hAsub, hBsub⟩
  exact List.mem_flatMap.mpr
    ⟨_, List.mem_filter.mpr ⟨hbucket_mem, by simpa using hblen⟩,
      List.mem_filter.mpr
        ⟨List.mem_map.mpr ⟨_, hsub_mem, rfl⟩, by simpa using hslen⟩⟩

/-! ### The cached variant's three stages (ideal-fingerprint model) -/

theorem df_same_group {fs : List SFile} {A B : SFile}
    (hA : A ∈ fs) (hB : B ∈ fs) (hAB : A ≠ B)
    (hcontent : A.content = B.content) (hsize : 0 < A.content.length) :
    ∃ S ∈ DF.df_confirmed fs, A ∈ S ∧ B ∈ S := by
  have hAscan : A ∈ DF.df_scanned fs :=
    List.mem_filter.mpr ⟨hA, by simpa using hsize⟩
  have hBscan : B ∈ DF.df_scanned fs := by
    refine List.mem_filter.mpr ⟨hB, ?_⟩
    simp only [← hcontent]
    simpa using hsize
  obtain ⟨hbucket_mem, hAbucket⟩ :=
    groupByKey_complete (f := fun f => f.content.length) hAscan
  have hBbucket := mem_filter_keyEq (f := fun f => f.content.length)
    (l := DF.df_scanned fs) (x := A) hBscan (by simp [hcontent])
  have hblen := one_lt_length_of_mem_mem hAbucket hBbucket hAB
  have hAin : A ∈ DF.stage2_input fs := by
    exact List.mem_flatMap.mpr
      ⟨_, List.mem_filter.mpr ⟨hbucket_mem, by simpa using hblen⟩, hAbucket⟩
  have hBin : B ∈ DF.stage2_input fs := by
    exact List.mem_flatMap.mpr
      ⟨_, List.mem_filter.mpr ⟨hbucket_mem, by simpa using hblen⟩, hBbucket⟩
  obtain ⟨hgrp_mem, hAgrp⟩ := groupByKey_complete (f := DF.stage2_key) hAin
  have hBgrp := mem_filter_keyEq (f := DF.stage2_key) (x := A) hBin
    (by simp [DF.stage2_key, DF.get_part_hash, hcontent])
  have hglen := one_lt_length_of_mem_mem hAgrp hBgrp hAB
  have hAfth : A ∈ DF.files_to_hash fs := by
    exact List.mem_flatMap.mpr
      ⟨_, List.mem_filter.mpr ⟨hgrp_mem, by simpa using hglen⟩, hAgrp⟩
  have hBfth : B ∈ DF.files_to_hash fs := by
    exact List.mem_flatMap.mpr
      ⟨_, List.mem_filter.mpr ⟨hgrp_mem, by simpa using hglen⟩, hBgrp⟩
  obtain ⟨hhash_mem, hAfinal⟩ := groupByKey_complete (f := DF.get_full_hash) hAfth
  have hBfinal := mem_filter_keyEq (f := DF.get_full_hash) (x := A) hBfth
    (by simp [DF.get_full_hash, hcontent])
  have hlen2 := one_lt_length_of_mem_mem hAfinal hBfinal hAB
  refine ⟨_, ?_, hAfinal, hBfinal⟩
  exact List.mem_filter.mpr
    ⟨List.mem_map.mpr ⟨_, hhash_mem, rfl⟩, by simpa using hlen2⟩

theorem df_confirmed_homog {fs : List SFile} :
    ∀ S ∈ DF.df_confirmed fs, ∀ a ∈ S, ∀ b ∈ S, a.content = b.content := by
  intro S hS
  rcases List.mem_filter.mp hS with ⟨hmap, -⟩
  rcases List.mem_map.mp hmap with ⟨⟨k, S₂⟩, hmem, heq⟩
  obtain rfl : S₂ = S := heq
  rcases mem_groupByKey hmem with ⟨hSeq, -⟩
  intro a ha b hb
  rw [hSeq] at ha hb
  have h1 : DF.get_full_hash a = k := by simpa using (List.mem_filter.mp ha).2
  have h2 : DF.get_full_hash b = k := by simpa using (List.mem_filter.mp hb).2
  exact h1.trans h2.symm

theorem confirmed_sets_spec {fs : List SFile} (hnd : fs.Nodup) :
    Homog (confirmed_sets fs) ∧
      (∀ g ∈ likely_dupes fs, ∀ A ∈ g, ∀ B ∈ g, A ≠ B →
        A.content = B.content → Linked (confirmed_sets fs) A B) := by
  obtain ⟨h1, -, -, -, h5⟩ := phase3_groups (likely_dupes fs) []
    likely_dupes_pairwise (likely_dupes_nodup hnd)
    (fun S hS => absurd hS (List.not_mem_nil S))
    List.Pairwise.nil
    (fun S hS => absurd hS (List.not_mem_nil S))
  exact ⟨h1, h5⟩

/-! ### Scanner lemmas (C8) -/

/-- The per-entry stat-and-filter step of both scanners, characterised. -/
theorem scanStep_eq (f : RawFile) (p : FPath) (s : Nat) (m : Int) :
    ((match f.stat with
      | none => none
      | some sm => if 0 < sm.1 then some (f.path, sm.1, sm.2) else none) =
        some (p, s, m)) ↔
    f.path = p ∧ f.stat = some (s, m) ∧ 0 < s := by
  cases hst : f.stat with
  | none => simp
  | some sm =>
    obtain ⟨sz, mt⟩ := sm
    show ((if 0 < sz then some (f.path, sz, mt) else none) = some (p, s, m)) ↔
      f.path = p ∧ some (sz, mt) = some (s, m) ∧ 0 < s
    by_cases hs : 0 < sz
    · rw [if_pos hs]
      constructor
      · intro h
        have h2 := Option.some.inj h
        simp only [Prod.mk.injEq] at h2
        obtain ⟨h3, rfl, rfl⟩ := h2
        exact ⟨h3, rfl, hs⟩
      · rintro ⟨h1, h2, h3⟩
        have h4 := Option.some.inj h2
        simp only [Prod.mk.injEq] at h4
        obtain ⟨rfl, rfl⟩ := h4
        rw [h1]
    · rw [if_neg hs]
      constructor
      · intro h
        exact absurd h (by simp)
      · rintro ⟨h1, h2, h3⟩
        have h4 := Option.some.inj h2
        simp only [Prod.mk.injEq] at h4
        obtain ⟨rfl, rfl⟩ := h4
        exact absurd h3 hs

/-- Membership in the filtered, stat-checked record list, for any entry
filter `keep`. -/
theorem scan_mem (entries : List RawFile) (keep : RawFile → Bool) (p : FPath)
    (s : Nat) (m : Int) :
    ((p, s, m) ∈ (entries.filter keep).filterMap
        (fun f =>
          match f.stat with
          | none => none
          | some sm => if 0 < sm.1 then some (f.path, sm.1, sm.2) else none)) ↔
    ∃ f ∈ entries, keep f = true ∧ f.path = p ∧ f.stat = some (s, m) ∧ 0 < s := by
  rw [List.mem_filterMap]
  constructor
  · rintro ⟨f, hf, heq⟩
    rw [List.mem_filter] at hf
    obtain ⟨h1, h2, h3⟩ := (scanStep_eq f p s m).mp heq
    exact ⟨f, hf.1, hf.2, h1, h2, h3⟩
  · rintro ⟨f, hf, hk, h1, h2, h3⟩
    exact ⟨f, List.mem_filter.mpr ⟨hf, hk⟩, (scanStep_eq f p s m).mpr ⟨h1, h2, h3⟩⟩

/-! ### Path serialisation round trip (C4) -/

/-- Prepending slash-free characters extends the first split component. -/
theorem splitParts_cons_append (p : List Char) (hp : ∀ c ∈ p, c ≠ '/')
    (l : List Char) (q : List Char) (qs : List (List Char))
    (h : splitParts l = q :: qs) :
    splitParts (p ++ l) = (p ++ q) :: qs := by
  induction p with
  | nil => simpa using h
  | cons c p2 ih =>
    have hc : c ≠ '/' := hp c (List.mem_cons_self c p2)
    have hrest : ∀ x ∈ p2, x ≠ '/' := fun x hx => hp x (List.mem_cons_of_mem c hx)
    show splitParts (c :: (p2 ++ l)) = ((c :: p2) ++ q) :: qs
    simp only [splitParts]
    rw [if_neg hc, ih hrest]
    rfl

/-- Splitting the slash-join of well-formed parts recovers the parts. -/
theorem splitParts_joinParts (pss : List (List Char)) (hne : pss ≠ [])
    (hf : ∀ ps ∈ pss, ∀ c ∈ ps, c ≠ '/') :
    splitParts (joinParts pss) = pss := by
  induction pss with
  | nil => exact absurd rfl hne
  | cons p rest ih =>
    cases rest with
    | nil =>
      have h0 : splitParts ([] : List Char) = [] :: [] := rfl
      have h1 := splitParts_cons_append p (hf p (List.mem_cons_self p []))
        [] [] [] h0
      rw [List.append_nil] at h1
      exact h1
    | cons p2 rest2 =>
      have hih : splitParts (joinParts (p2 :: rest2)) = p2 :: rest2 :=
        ih (by simp) (fun ps hps => hf ps (List.mem_cons_of_mem p hps))
      have hslash : splitParts ('/' :: joinParts (p2 :: rest2)) =
          [] :: (p2 :: rest2) := by
        simp [splitParts, hih]
      have h1 := splitParts_cons_append p (hf p (List.mem_cons_self p _))
        ('/' :: joinParts (p2 :: rest2)) [] (p2 :: rest2) hslash
      rw [List.append_nil] at h1
      exact h1

/-- `Path(str(p)) = p` for well-formed paths. -/
theorem strToPath_pathToStr (p : FPath) (h : wfPath p) :
    strToPath (pathToStr p) = p := by
  obtain ⟨hne, hfree⟩ := h
  show FPath.mk ((splitParts
    (String.mk (joinParts (p.parts.map String.data))).data).map String.mk) = p
  have hd : (String.mk (joinParts (p.parts.map String.data))).data =
      joinParts (p.parts.map String.data) := rfl
  rw [hd, splitParts_joinParts (p.parts.map String.data)
    (fun hmap => hne (List.map_eq_nil_iff.mp hmap))
    (by
      intro ps hps
      rw [List.mem_map] at hps
      obtain ⟨s, hs, rfl⟩ := hps
      intro c hc hceq
      exact hfree s hs (hceq ▸ hc))]
  rw [List.map_map]
  have hmapid : ∀ l : List String, l.map (String.mk ∘ String.data) = l := by
    intro l
    induction l with
    | nil => rfl
    | cons a t ih =>
      simp only [List.map_cons, ih]
      rfl
  rw [hmapid]

/-- De-serialising a serialised list of well-formed paths is the identity. -/
theorem map_path_round (l : List FPath) (h : ∀ p ∈ l, wfPath p) :
    (l.map pathToStr).map strToPath = l := by
  induction l with
  | nil => rfl
  | cons a t ih =>
    simp only [List.map_cons]
    rw [strToPath_pathToStr a (h a (List.mem_cons_self a t)),
      ih (fun p hp => h p (List.mem_cons_of_mem a hp))]

/-- Round trip on the serialised confirmed groups. -/
theorem map_group_round (gs : List (List FPath))
    (h : ∀ g ∈ gs, ∀ p ∈ g, wfPath p) :
    (gs.map (fun g => g.map pathToStr)).map (fun g => g.map strToPath) = gs := by
  induction gs with
  | nil => rfl
  | cons g t ih =>
    simp only [List.map_cons]
    rw [map_path_round g (h g (List.mem_cons_self g t)),
      ih (fun g2 hg2 => h g2 (List.mem_cons_of_mem g hg2))]

/-- Round trip on the serialised metadata entries. -/
theorem map_md_round (md : List (FPath × Nat × Int))
    (h : ∀ e ∈ md, wfPath e.1) :
    (md.map (fun e => (pathToStr e.1, e.2.1, e.2.2))).map
      (fun e => (strToPath e.1, e.2.1, e.2.2)) = md := by
  induction md with
  | nil => rfl
  | cons e t ih =>
    simp only [List.map_cons]
    rw [strToPath_pathToStr e.1 (h e (List.mem_cons_self e t)),
      ih (fun e2 he2 => h e2 (List.mem_cons_of_mem e he2))]

/-- Round trip on the serialised fingerprint map. -/
theorem map_hash_round (hs : List (List Nat × List FPath))
    (h : ∀ hf ∈ hs, ∀ p ∈ hf.2, wfPath p) :
    (hs.map (fun hf => (hf.1, hf.2.map pathToStr))).map
      (fun hf => (hf.1, hf.2.map strToPath)) = hs := by
  induction hs with
  | nil => rfl
  | cons hf t ih =>
    simp only [List.map_cons]
    rw [map_path_round hf.2 (h hf (List.mem_cons_self hf t)),
      ih (fun hf2 hhf2 => h hf2 (List.mem_cons_of_mem hf hhf2))]

/-! ### Cache staleness lemmas (C3) -/

/-- The consistency loop with early break accepts exactly when every
sampled entry is consistent. -/
theorem checkLoop_eq_all (stat : FPath → Option (Nat × Int))
    (l : List (FPath × Nat × Int)) :
    checkLoop stat l = true ↔ ∀ e ∈ l, entryConsistent stat e = true := by
  induction l with
  | nil => simp [checkLoop]
  | cons e t ih =>
    by_cases h : entryConsistent stat e = true
    · simp only [checkLoop]
      rw [if_pos h, ih]
      constructor
      · intro ha e2 he2
        rcases List.mem_cons.mp he2 with h2 | h2
        · rw [h2]; exact h
        · exact ha e2 h2
      · intro ha e2 he2
        exact ha e2 (List.mem_cons_of_mem e he2)
    · simp only [checkLoop]
      rw [if_neg h]
      constructor
      · intro hfalse
        exact absurd hfalse (by simp)
      · intro ha
        exact absurd (ha e (List.mem_cons_self e t)) h

/-- A single entry is inconsistent exactly when its path is gone or
inaccessible, the size changed, or the mtime moved by more than one
second. -/
theorem entryConsistent_false_iff (stat : FPath → Option (Nat × Int))
    (e : FPath × Nat × Int) :
    entryConsistent stat e = false ↔
    stat e.1 = none ∨
      ∃ sz mt, stat e.1 = some (sz, mt) ∧
        (sz ≠ e.2.1 ∨ 1 < (mt - e.2.2).natAbs) := by
  cases hst : stat e.1 with
  | none =>
    constructor
    · intro h2
      exact Or.inl rfl
    · intro h2
      show (match stat e.1 with
        | none => false
        | some sm => sm.1 == e.2.1 && decide ((sm.2 - e.2.2).natAbs ≤ 1)) = false
      rw [hst]
  | some sm =>
    obtain ⟨sz, mt⟩ := sm
    have hunf : entryConsistent stat e =
        (sz == e.2.1 && decide ((mt - e.2.2).natAbs ≤ 1)) := by
      show (match stat e.1 with
        | none => false
        | some sm => sm.1 == e.2.1 && decide ((sm.2 - e.2.2).natAbs ≤ 1)) = _
      rw [hst]
    rw [hunf]
    constructor
    · intro h2
      rcases Bool.and_eq_false_iff.mp h2 with h3 | h3
      · exact Or.inr ⟨sz, mt, rfl, Or.inl (by simpa using h3)⟩
      · refine Or.inr ⟨sz, mt, rfl, Or.inr ?_⟩
        have h4 := of_decide_eq_false h3
        omega
    · rintro (h2 | ⟨sz2, mt2, h2, h3⟩)
      · exact absurd h2 (by simp)
      · have h4 := Option.some.inj h2
        simp only [Prod.mk.injEq] at h4
        obtain ⟨rfl, rfl⟩ := h4
        rw [Bool.and_eq_false_iff]
        rcases h3 with h3 | h3
        · exact Or.inl (by simpa using h3)
        · exact Or.inr (decide_eq_false (by omega))

/-! ### Copy-conflict loop lemmas (C2) -/

/-- Appending entries does not change the lookup of a path already
present. -/
theorem fsLookup_append_of_isSome (fs ext : List (FPath × List Nat))
    (p : FPath) (h : (fsLookup fs p).isSome = true) :
    fsLookup (fs ++ ext) p = fsLookup fs p := by
  unfold fsLookup at *
  rw [List.find?_append]
  cases hf : List.find? (fun e => e.1 == p) fs with
  | none => rw [hf] at h; simp at h
  | some e => rfl

/-- The conflict loop, run with enough fuel from counter `k`: if every
candidate from `k` up to (excluding) `ktgt` exists with content differing
from the source, and candidate `ktgt` is free, the loop copies the source
to candidate `ktgt` and succeeds. -/
theorem copyLoop_spec (srcC : List Nat) (base : FPath) :
    ∀ (fuel k ktgt : Nat) (fs : List (FPath × List Nat)),
      k ≤ ktgt → ktgt - k < fuel →
      (∀ j, k ≤ j → j < ktgt →
        ∃ cj, fsLookup fs (candidate base j) = some cj ∧ cj ≠ srcC) →
      fsLookup fs (candidate base ktgt) = none →
      copyLoop fs srcC base fuel k =
        (fs ++ [(candidate base ktgt, srcC)], some CopyRes.success) := by
  intro fuel
  induction fuel with
  | zero =>
    intro k ktgt fs hk hfuel hj hfree
    omega
  | succ n ih =>
    intro k ktgt fs hk hfuel hj hfree
    by_cases hkt : k = ktgt
    · subst hkt
      simp only [copyLoop]
      rw [hfree]
    · have hklt : k < ktgt := lt_of_le_of_ne hk hkt
      obtain ⟨cj, hcj, hne⟩ := hj k le_rfl hklt
      simp only [copyLoop]
      rw [hcj]
      have hid : files_are_identical srcC cj = false := by
        unfold files_are_identical
        exact beq_eq_false_iff_ne.mpr (fun h2 => hne h2.symm)
      show (if files_are_identical srcC cj = true then (fs, some CopyRes.success)
        else copyLoop fs srcC base n (k + 1)) = _
      rw [hid]
      show copyLoop fs srcC base n (k + 1) = _
      exact ih (k + 1) ktgt fs hklt (by omega)
        (fun j hj1 hj2 => hj j (by omega) hj2) hfree

/-! ### Folder-signature lemmas (C7) -/

/-- `addSig` keeps the existing keys, appending the new one if absent. -/
theorem addSig_fst (acc : List (FPath × Finset (List Nat))) (p : FPath)
    (h : List Nat) :
    (addSig acc p h).map Prod.fst =
      if p ∈ acc.map Prod.fst then acc.map Prod.fst
      else acc.map Prod.fst ++ [p] := by
  induction acc with
  | nil => simp [addSig]
  | cons kv rest ih =>
    by_cases hk : kv.1 = p
    · simp only [addSig, if_pos hk, List.map_cons]
      rw [if_pos (by rw [hk]; exact List.mem_cons_self p _)]
    · simp only [addSig, if_neg hk, List.map_cons, ih]
      by_cases hm : p ∈ rest.map Prod.fst
      · rw [if_pos hm, if_pos (List.mem_cons_of_mem kv.1 hm)]
      · rw [if_neg hm, if_neg (by
          intro hc
          rcases List.mem_cons.mp hc with hc | hc
          · exact hk hc.symm
          · exact hm hc)]
        rfl

/-- `addSig` preserves distinctness of the folder keys. -/
theorem addSig_nodup (acc : List (FPath × Finset (List Nat))) (p : FPath)
    (h : List Nat) (hnd : (acc.map Prod.fst).Nodup) :
    ((addSig acc p h).map Prod.fst).Nodup := by
  rw [addSig_fst]
  by_cases hm : p ∈ acc.map Prod.fst
  · rw [if_pos hm]
    exact hnd
  · rw [if_neg hm]
    exact List.Nodup.append hnd (List.nodup_singleton p)
      (fun a ha hb => hm ((List.mem_singleton.mp hb) ▸ ha))

/-- `addSig` preserves non-emptiness of every signature set. -/
theorem addSig_vals (acc : List (FPath × Finset (List Nat))) (p : FPath)
    (h : List Nat) (hv : ∀ kv ∈ acc, kv.2 ≠ ∅) :
    ∀ kv ∈ addSig acc p h, kv.2 ≠ ∅ := by
  induction acc with
  | nil =>
    intro kv hkv
    rw [show addSig [] p h = [(p, {h})] from rfl, List.mem_singleton] at hkv
    rw [hkv]
    exact Finset.singleton_ne_empty h
  | cons e rest ih =>
    intro kv hkv
    by_cases hk : e.1 = p
    · rw [show addSig (e :: rest) p h = (e.1, insert h e.2) :: rest from by
        simp [addSig, hk]] at hkv
      rcases List.mem_cons.mp hkv with h2 | h2
      · rw [h2]
        exact Finset.insert_ne_empty h e.2
      · exact hv kv (List.mem_cons_of_mem e h2)
    · rw [show addSig (e :: rest) p h = e :: addSig rest p h from by
        simp [addSig, hk]] at hkv
      rcases List.mem_cons.mp hkv with h2 | h2
      · rw [h2]
        exact hv e (List.mem_cons_self e rest)
      · exact ih (fun kv2 hkv2 => hv kv2 (List.mem_cons_of_mem e hkv2)) kv h2

/-- The signature fold preserves key distinctness and value
non-emptiness. -/
theorem sig_invariant (files : List SFile) :
    ∀ acc : List (FPath × Finset (List Nat)),
      (acc.map Prod.fst).Nodup → (∀ kv ∈ acc, kv.2 ≠ ∅) →
      (((files.foldl (fun acc f =>
          if (DF.get_full_hash f).isEmpty then acc
          else addSig acc f.path.parent (DF.get_full_hash f)) acc).map
        Prod.fst).Nodup ∧
       ∀ kv ∈ files.foldl (fun acc f =>
          if (DF.get_full_hash f).isEmpty then acc
          else addSig acc f.path.parent (DF.get_full_hash f)) acc,
        kv.2 ≠ ∅) := by
  induction files with
  | nil =>
    intro acc h1 h2
    exact ⟨h1, h2⟩
  | cons f t ih =>
    intro acc h1 h2
    rw [List.foldl_cons]
    by_cases hh : (DF.get_full_hash f).isEmpty
    · rw [if_pos hh]
      exact ih acc h1 h2
    · rw [if_neg hh]
      exact ih _ (addSig_nodup acc _ _ h1) (addSig_vals acc _ _ h2)

/-- The folder keys of the built signatures are distinct. -/
theorem sigs_nodup (files : List SFile) :
    ((folder_content_signatures files).map Prod.fst).Nodup :=
  (sig_invariant files [] (by simp) (by simp)).1

/-- Every built signature set is non-empty. -/
theorem sigs_vals (files : List SFile) :
    ∀ kv ∈ folder_content_signatures files, kv.2 ≠ ∅ :=
  (sig_invariant files [] (by simp) (by simp)).2

/-- Association lookup under distinct keys finds the recorded pair. -/
theorem assoc_find {κ β : Type} [DecidableEq κ] (l : List (κ × β)) (k : κ)
    (v : β) (hnd : (l.map Prod.fst).Nodup) (hm : (k, v) ∈ l) :
    l.find? (fun kv => kv.1 == k) = some (k, v) := by
  induction l with
  | nil => exact absurd hm (List.not_mem_nil _)
  | cons e t ih =>
    rcases List.mem_cons.mp hm with h2 | h2
    · rw [List.find?_cons_of_pos _ (by rw [← h2]; exact beq_self_eq_true k), ← h2]
    · have hk : k ∈ t.map Prod.fst :=
        List.mem_map.mpr ⟨(k, v), h2, rfl⟩
      have hne : e.1 ≠ k := by
        intro hc
        exact (List.nodup_cons.mp hnd).1 (hc ▸ hk)
      rw [List.find?_cons_of_neg _ (by simpa using hne)]
      exact ih (List.nodup_cons.mp hnd).2 h2

/-- `sigLookup` returns the recorded signature set of a present folder. -/
theorem sigLookup_eq (sigs : List (FPath × Finset (List Nat))) (k : FPath)
    (s : Finset (List Nat)) (hnd : (sigs.map Prod.fst).Nodup)
    (hm : (k, s) ∈ sigs) : sigLookup sigs k = s := by
  unfold sigLookup
  rw [assoc_find sigs k s hnd hm]
  rfl

/-- A key of the signature list carries some recorded set. -/
theorem key_has_entry (sigs : List (FPath × Finset (List Nat))) (k : FPath)
    (hk : k ∈ sigs.map Prod.fst) : ∃ s, (k, s) ∈ sigs := by
  rw [List.mem_map] at hk
  obtain ⟨kv, hkv, he⟩ := hk
  exact ⟨kv.2, by rw [← he]; exact hkv⟩

/-- When the pair comparison emits an `Exact Duplicate` record. -/
theorem pairRel_exact_iff (sigs : List (FPath × Finset (List Nat)))
    (a b c d : FPath) :
    pairRel sigs a b = some (FolderRel.exactDup c d) ↔
    a = c ∧ b = d ∧ sigLookup sigs a ≠ ∅ ∧ sigLookup sigs b ≠ ∅ ∧
      sigLookup sigs a = sigLookup sigs b := by
  unfold pairRel
  by_cases h1 : sigLookup sigs a = ∅ ∨ sigLookup sigs b = ∅
  · rw [if_pos h1]
    constructor
    · intro h
      exact absurd h (by simp)
    · rintro ⟨-, -, h3, h4, -⟩
      rcases h1 with h1 | h1
      · exact absurd h1 h3
      · exact absurd h1 h4
  · rw [if_neg h1]
    push_neg at h1
    by_cases h2 : sigLookup sigs a = sigLookup sigs b
    · rw [if_pos h2]
      constructor
      · intro h
        injection Option.some.inj h with h4 h5
        exact ⟨h4, h5, h1.1, h1.2, h2⟩
      · rintro ⟨rfl, rfl, -, -, -⟩
        rfl
    · rw [if_neg h2]
      constructor
      · intro h
        by_cases h3 : sigLookup sigs a ⊆ sigLookup sigs b
        · rw [if_pos h3] at h
          have h4 := Option.some.inj h
          cases h4
        · rw [if_neg h3] at h
          by_cases h4 : sigLookup sigs b ⊆ sigLookup sigs a
          · rw [if_pos h4] at h
            have h5 := Option.some.inj h
            cases h5
          · rw [if_neg h4] at h
            exact absurd h (by simp)
      · rintro ⟨-, -, -, -, h5⟩
        exact absurd h5 h2

/-- When the pair comparison emits a `Subset` record. -/
theorem pairRel_subset_iff (sigs : List (FPath × Finset (List Nat)))
    (a b c d : FPath) :
    pairRel sigs a b = some (FolderRel.subset c d) ↔
    sigLookup sigs a ≠ ∅ ∧ sigLookup sigs b ≠ ∅ ∧
      sigLookup sigs a ≠ sigLookup sigs b ∧
      ((a = c ∧ b = d ∧ sigLookup sigs a ⊆ sigLookup sigs b) ∨
       (b = c ∧ a = d ∧ ¬ sigLookup sigs a ⊆ sigLookup sigs b ∧
         sigLookup sigs b ⊆ sigLookup sigs a)) := by
  unfold pairRel
  by_cases h1 : sigLookup sigs a = ∅ ∨ sigLookup sigs b = ∅
  · rw [if_pos h1]
    constructor
    · intro h
      exact absurd h (by simp)
    · rintro ⟨h2, h3, -, -⟩
      rcases h1 with h1 | h1
      · exact absurd h1 h2
      · exact absurd h1 h3
  · rw [if_neg h1]
    push_neg at h1
    by_cases h2 : sigLookup sigs a = sigLookup sigs b
    · rw [if_pos h2]
      constructor
      · intro h
        have h3 := Option.some.inj h
        cases h3
      · rintro ⟨-, -, h3, -⟩
        exact absurd h2 h3
    · rw [if_neg h2]
      by_cases h3 : sigLookup sigs a ⊆ sigLookup sigs b
      · rw [if_pos h3]
        constructor
        · intro h
          injection Option.some.inj h with h4 h5
          exact ⟨h1.1, h1.2, h2, Or.inl ⟨h4, h5, h3⟩⟩
        · rintro ⟨-, -, -, (⟨rfl, rfl, -⟩ | ⟨rfl, rfl, h6, -⟩)⟩
          · rfl
          · exact absurd h3 h6
      · rw [if_neg h3]
        by_cases h4 : sigLookup sigs b ⊆ sigLookup sigs a
        · rw [if_pos h4]
          constructor
          · intro h
            injection Option.some.inj h with h5 h6
            exact ⟨h1.1, h1.2, h2, Or.inr ⟨h5, h6, h3, h4⟩⟩
          · rintro ⟨-, -, -, (⟨rfl, rfl, h5⟩ | ⟨rfl, rfl, -, -⟩)⟩
            · exact absurd h5 h3
            · rfl
        · rw [if_neg h4]
          constructor
          · intro h
            exact absurd h (by simp)
          · rintro ⟨-, -, -, (⟨rfl, rfl, h5⟩ | ⟨rfl, rfl, -, h6⟩)⟩
            · exact absurd h5 h3
            · exact absurd h6 h4

/-- Any emitted record mentions only the two folders compared. -/
theorem pairRel_mentions (sigs : List (FPath × Finset (List Nat)))
    (a b : FPath) (r : FolderRel)
    (h : pairRel sigs a b = some r) (F : FPath) (hm : relMentions r F) :
    F = a ∨ F = b := by
  unfold pairRel at h
  by_cases h1 : sigLookup sigs a = ∅ ∨ sigLookup sigs b = ∅
  · rw [if_pos h1] at h
    exact absurd h (by simp)
  · rw [if_neg h1] at h
    by_cases h2 : sigLookup sigs a = sigLookup sigs b
    · rw [if_pos h2] at h
      have h3 := Option.some.inj h
      rw [← h3] at hm
      exact hm
    · rw [if_neg h2] at h
      by_cases h3 : sigLookup sigs a ⊆ sigLookup sigs b
      · rw [if_pos h3] at h
        have h4 := Option.some.inj h
        rw [← h4] at hm
        exact hm
      · rw [if_neg h3] at h
        by_cases h4 : sigLookup sigs b ⊆ sigLookup sigs a
        · rw [if_pos h4] at h
          have h5 := Option.some.inj h
          rw [← h5] at hm
          exact hm.symm
        · rw [if_neg h4] at h
          exact absurd h (by simp)

/-! ## Claim theorems

One theorem per claim of the specification review, with a witness theorem
whenever the claim theorem carries hypotheses. -/

/-- C9: for every file path, `get_filename_score` equals 0 plus a fixed
penalty (10) exactly when the lowercased filename contains a copy-indicator
token (`(copy)`, or `copy` led by `-`, `_` or a space), plus a smaller fixed
penalty (5) exactly when it contains a parenthesised number, plus the path
depth `len(parts) - 1`; lower scores are preferred. -/
theorem C9_score_decomposition (p : FPath) :
    ∃ cpen ppen,
      get_filename_score p = cpen + ppen + (p.parts.length - 1) ∧
      ((cpen = 10 ∧ CopyIndicator (lowerData p.name)) ∨
        (cpen = 0 ∧ ¬CopyIndicator (lowerData p.name))) ∧
      ((ppen = 5 ∧ HasParenNumber (lowerData p.name)) ∨
        (ppen = 0 ∧ ¬HasParenNumber (lowerData p.name))) := by
  have hcopy := reCopyMatch_iff (lowerData p.name)
  have hparen := parenNum_iff (lowerData p.name)
  by_cases h1 : reCopyMatch (lowerData p.name) <;>
    by_cases h2 : parenNum (lowerData p.name)
  · exact ⟨10, 5, by simp [get_filename_score, h1, h2],
      Or.inl ⟨rfl, hcopy.mp h1⟩, Or.inl ⟨rfl, hparen.mp h2⟩⟩
  · exact ⟨10, 0, by simp [get_filename_score, h1, h2],
      Or.inl ⟨rfl, hcopy.mp h1⟩,
      Or.inr ⟨rfl, fun hc => h2 (hparen.mpr hc)⟩⟩
  · exact ⟨0, 5, by simp [get_filename_score, h1, h2],
      Or.inr ⟨rfl, fun hc => h1 (hcopy.mpr hc)⟩, Or.inl ⟨rfl, hparen.mp h2⟩⟩
  · exact ⟨0, 0, by simp [get_filename_score, h1, h2],
      Or.inr ⟨rfl, fun hc => h1 (hcopy.mpr hc)⟩,
      Or.inr ⟨rfl, fun hc => h2 (hparen.mpr hc)⟩⟩

/-- C6: `guess_keeper` is deterministic as a function of the group viewed as a
set: two permutations of the same non-empty path list designate the same
keeper path, namely the member minimising `(score, path)` in the tuple order
(ties broken by lexicographic path order, never randomly). -/
theorem C6_guess_keeper_deterministic (g₁ g₂ : List FPath)
    (hperm : g₁.Perm g₂) (hne : g₁ ≠ []) :
    keeperOf g₁ = keeperOf g₂ ∧
      ∃ p, keeperOf g₁ = some p ∧ p ∈ g₁ ∧
        ∀ q ∈ g₁, pairLe (scoreKey p) (scoreKey q) = true := by
  have hne₂ : g₂ ≠ [] := by
    intro h0
    exact hne (List.Perm.eq_nil (h0 ▸ hperm))
  obtain ⟨p₁, hp₁g, hk₁, -, hmin₁⟩ := guess_keeper_min hne
  obtain ⟨p₂, hp₂g, hk₂, -, hmin₂⟩ := guess_keeper_min hne₂
  have h12 : pairLe (scoreKey p₁) (scoreKey p₂) = true :=
    hmin₁ p₂ (hperm.mem_iff.mpr hp₂g)
  have h21 : pairLe (scoreKey p₂) (scoreKey p₁) = true :=
    hmin₂ p₁ (hperm.mem_iff.mp hp₁g)
  have hpp : p₁ = p₂ := congrArg Prod.snd (pairLe_antisymm h12 h21)
  refine ⟨?_, p₁, hk₁, hp₁g, hmin₁⟩
  rw [hk₁, hk₂, hpp]

/-- Witness for C6 at a concrete two-element group and its transposition. -/
theorem C6_guess_keeper_deterministic_witness :
    ([⟨["b.txt"]⟩, ⟨["a.txt"]⟩] : List FPath).Perm [⟨["a.txt"]⟩, ⟨["b.txt"]⟩] ∧
      ([⟨["b.txt"]⟩, ⟨["a.txt"]⟩] : List FPath) ≠ [] ∧
      (keeperOf [⟨["b.txt"]⟩, ⟨["a.txt"]⟩] = keeperOf [⟨["a.txt"]⟩, ⟨["b.txt"]⟩] ∧
        ∃ p, keeperOf ([⟨["b.txt"]⟩, ⟨["a.txt"]⟩] : List FPath) = some p ∧
          p ∈ ([⟨["b.txt"]⟩, ⟨["a.txt"]⟩] : List FPath) ∧
          ∀ q ∈ ([⟨["b.txt"]⟩, ⟨["a.txt"]⟩] : List FPath),
            pairLe (scoreKey p) (scoreKey q) = true) :=
  ⟨List.Perm.swap (FPath.mk ["a.txt"]) (FPath.mk ["b.txt"]) ([] : List FPath),
    by decide,
    C6_guess_keeper_deterministic _ _
      (List.Perm.swap (FPath.mk ["a.txt"]) (FPath.mk ["b.txt"]) ([] : List FPath))
      (by decide)⟩

/-- C10: `guess_keeper` returns 0 on the empty group and a 1-based position
between 1 and the group length on a non-empty group, so every duplicate-group
record of the JSON report carries a `keep_index` that is a valid 0-based index
into its `files` list. -/
theorem C10_report_keep_index_valid :
    guess_keeper ([] : List FPath) = 0 ∧
      (∀ g : List FPath, g ≠ [] →
        1 ≤ guess_keeper g ∧ guess_keeper g ≤ g.length) ∧
      ∀ (metadata : List (FPath × Nat × Int)) (confirmed : List (List FPath))
        (root : FPath) (s : Nat) (files : List String) (ki : Nat),
        ReportEntry.dupGroup s files ki ∈
            create_json_report_entries metadata confirmed root →
        ki < files.length := by
  refine ⟨rfl, fun g hg => guess_keeper_bounds hg, ?_⟩
  intro metadata confirmed root s files ki hmem
  exact cjr_fold_invariant confirmed root metadata ([], [])
    (by intro s' files' ki' h; simp at h) s files ki hmem

/-- Witness for C10 on a concrete two-file report. -/
theorem C10_report_keep_index_valid_witness :
    ReportEntry.dupGroup 3 ["a.txt", "b.txt"] 0 ∈
        create_json_report_entries
          [(⟨["a.txt"]⟩, 3, 0), (⟨["b.txt"]⟩, 3, 0)]
          [[⟨["a.txt"]⟩, ⟨["b.txt"]⟩]] ⟨[]⟩ ∧
      0 < (["a.txt", "b.txt"] : List String).length :=
  ⟨by decide,
    C10_report_keep_index_valid.2.2
      [(⟨["a.txt"]⟩, 3, 0), (⟨["b.txt"]⟩, 3, 0)]
      [[⟨["a.txt"]⟩, ⟨["b.txt"]⟩]] ⟨[]⟩ 3 ["a.txt", "b.txt"] 0 (by decide)⟩

/-- C1: in both duplicate pipelines, two distinct readable files with
identical byte content and positive size always land in one confirmed
duplicate group, and two files with differing byte content (even with equal
size and equal edge chunks) are never placed in a common confirmed group. -/
theorem C1_confirmed_groups (fs : List SFile)
    (hnodup : (fs.map SFile.path).Nodup) (A B : SFile)
    (hA : A ∈ fs) (hB : B ∈ fs) :
    (A.path ≠ B.path → A.content = B.content → 0 < A.content.length →
      (∃ S ∈ (dff_find_duplicates fs).1, A ∈ S ∧ B ∈ S) ∧
      (∃ S ∈ DF.df_confirmed fs, A ∈ S ∧ B ∈ S)) ∧
    (A.content ≠ B.content →
      (∀ S ∈ (dff_find_duplicates fs).1, ¬(A ∈ S ∧ B ∈ S)) ∧
      (∀ S ∈ DF.df_confirmed fs, ¬(A ∈ S ∧ B ∈ S))) := by
  have hnd : fs.Nodup := List.Nodup.of_map SFile.path hnodup
  constructor
  · intro hpne hcontent hsize
    have hAB : A ≠ B := fun h => hpne (congrArg SFile.path h)
    constructor
    · obtain ⟨g, hg, hAg, hBg⟩ := likely_same_group hA hB hAB hcontent hsize
      obtain ⟨-, hlink⟩ := confirmed_sets_spec hnd
      rcases hlink g hg A hAg B hBg hAB hcontent with ⟨S, hS, hAS, hBS⟩
      refine ⟨sortSet S, List.mem_map.mpr ⟨S, hS, rfl⟩, ?_, ?_⟩
      · exact (insSort_perm _ S).mem_iff.mpr hAS
      · exact (insSort_perm _ S).mem_iff.mpr hBS
    · exact df_same_group hA hB hAB hcontent hsize
  · intro hcne
    constructor
    · intro S hS hmem
      rcases List.mem_map.mp hS with ⟨S₀, hS₀, rfl⟩
      have hA0 : A ∈ S₀ := (insSort_perm _ S₀).mem_iff.mp hmem.1
      have hB0 : B ∈ S₀ := (insSort_perm _ S₀).mem_iff.mp hmem.2
      exact hcne ((confirmed_sets_spec hnd).1 S₀ hS₀ A hA0 B hB0)
    · intro S hS hmem
      exact hcne (df_confirmed_homog S hS A hmem.1 B hmem.2)

/-- Witness for C1 on a three-file tree with one duplicated content. -/
theorem C1_confirmed_groups_witness :
    (([⟨⟨["a"]⟩, [1, 2, 3], 0⟩, ⟨⟨["b"]⟩, [1, 2, 3], 0⟩,
        ⟨⟨["c"]⟩, [9, 9, 9], 0⟩] : List SFile).map SFile.path).Nodup ∧
      (⟨⟨["a"]⟩, [1, 2, 3], 0⟩ : SFile).path ≠
        (⟨⟨["b"]⟩, [1, 2, 3], 0⟩ : SFile).path ∧
      ((∃ S ∈ (dff_find_duplicates [⟨⟨["a"]⟩, [1, 2, 3], 0⟩,
            ⟨⟨["b"]⟩, [1, 2, 3], 0⟩, ⟨⟨["c"]⟩, [9, 9, 9], 0⟩]).1,
          (⟨⟨["a"]⟩, [1, 2, 3], 0⟩ : SFile) ∈ S ∧
            (⟨⟨["b"]⟩, [1, 2, 3], 0⟩ : SFile) ∈ S) ∧
        ∃ S ∈ DF.df_confirmed [⟨⟨["a"]⟩, [1, 2, 3], 0⟩,
            ⟨⟨["b"]⟩, [1, 2, 3], 0⟩, ⟨⟨["c"]⟩, [9, 9, 9], 0⟩],
          (⟨⟨["a"]⟩, [1, 2, 3], 0⟩ : SFile) ∈ S ∧
            (⟨⟨["b"]⟩, [1, 2, 3], 0⟩ : SFile) ∈ S) :=
  ⟨by decide, by decide,
    (C1_confirmed_groups _ (by decide) _ _ (by decide) (by decide)).1
      (by decide) (by decide) (by decide)⟩

/-- C5: in `process_report_actions`, the inline sheet-resolution block
referencing the unbound name `workbook` is not dead code: it executes on
every call whose report file exists - whatever the report's format suffix -
so the call raises `NameError` there and the task-reading stage is never
reached; only a missing report avoids the reference, by returning first. -/
theorem C5_workbook_reference_live (sfx : String) :
    process_report_actions true sfx =
      ([CleanStep.checkReportExists, CleanStep.inlineSheetResolution],
        CleanOutcome.nameError) ∧
    CleanStep.readTasks ∉ (process_report_actions true sfx).1 ∧
    process_report_actions false sfx =
      ([CleanStep.checkReportExists], CleanOutcome.missingReport) := by
  refine ⟨rfl, ?_, rfl⟩
  intro h
  simp [process_report_actions] at h

/-- C8 counterexample: a symbolic link to a non-empty regular file.  The
report-variant scanner (`duplicate_file_finder`) emits a record for it,
because its filter tests only `p.is_file()`, which follows symlinks; the
cache-variant scanner excludes it.  The claim that the scanner records
exactly the regular, non-symbolic-link files therefore fails for the
report variant. -/
theorem C8_scanner_symlink_counterexample :
    (RawFile.mk ⟨["r", "link.txt"]⟩ true true (some (5, 0))).isSLink = true ∧
    dff_scan true [RawFile.mk ⟨["r", "link.txt"]⟩ true true (some (5, 0))] =
      some [(⟨["r", "link.txt"]⟩, 5, 0)] ∧
    df_scan true [RawFile.mk ⟨["r", "link.txt"]⟩ true true (some (5, 0))] =
      Except.ok [] := by
  exact ⟨rfl, rfl, rfl⟩

/-- C8 (amended): on a non-directory root both scanners fail before
touching any file; on a directory root the cache-variant scanner records
exactly the non-symlink regular files with a successful stat and size > 0,
while the report-variant scanner records exactly the regular files - with
symlinks to regular files included - with a successful stat and size > 0;
in both, a failed stat skips the file without aborting the scan. -/
theorem C8_scanner_records (rootIsDir : Bool) (entries : List RawFile)
    (p : FPath) (s : Nat) (m : Int) :
    (rootIsDir = false →
      df_scan rootIsDir entries = Except.error "not a valid directory" ∧
      dff_scan rootIsDir entries = none) ∧
    (rootIsDir = true →
      ∃ l, df_scan rootIsDir entries = Except.ok l ∧
        ((p, s, m) ∈ l ↔
          ∃ f ∈ entries, f.isFile = true ∧ f.isSLink = false ∧ f.path = p ∧
            f.stat = some (s, m) ∧ 0 < s)) ∧
    (rootIsDir = true →
      ∃ l, dff_scan rootIsDir entries = some l ∧
        ((p, s, m) ∈ l ↔
          ∃ f ∈ entries, f.isFile = true ∧ f.path = p ∧
            f.stat = some (s, m) ∧ 0 < s)) := by
  refine ⟨?_, ?_, ?_⟩
  · rintro rfl
    exact ⟨rfl, rfl⟩
  · rintro rfl
    refine ⟨_, rfl, ?_⟩
    rw [scan_mem entries (fun f => f.isFile && !f.isSLink) p s m]
    constructor
    · rintro ⟨f, hf, hk, h1, h2, h3⟩
      rw [Bool.and_eq_true, Bool.not_eq_true'] at hk
      exact ⟨f, hf, hk.1, hk.2, h1, h2, h3⟩
    · rintro ⟨f, hf, hk1, hk2, h1, h2, h3⟩
      refine ⟨f, hf, ?_, h1, h2, h3⟩
      rw [Bool.and_eq_true, Bool.not_eq_true']
      exact ⟨hk1, hk2⟩
  · rintro rfl
    refine ⟨_, rfl, ?_⟩
    rw [scan_mem entries (fun f => f.isFile) p s m]

/-- C8 witness: the amended scanner characterisation applied on a concrete
two-entry listing (one regular file, one symlink to a regular file). -/
theorem C8_scanner_records_witness :
    (true = true) ∧
    (∃ l, df_scan true [RawFile.mk ⟨["r", "a.txt"]⟩ true false (some (3, 0)),
        RawFile.mk ⟨["r", "link.txt"]⟩ true true (some (5, 0))] = Except.ok l ∧
      ((⟨["r", "a.txt"]⟩, 3, (0 : Int)) ∈ l ↔
        ∃ f ∈ [RawFile.mk ⟨["r", "a.txt"]⟩ true false (some (3, 0)),
          RawFile.mk ⟨["r", "link.txt"]⟩ true true (some (5, 0))],
          f.isFile = true ∧ f.isSLink = false ∧ f.path = ⟨["r", "a.txt"]⟩ ∧
          f.stat = some (3, 0) ∧ 0 < 3)) :=
  ⟨rfl,
    (C8_scanner_records true
      [RawFile.mk ⟨["r", "a.txt"]⟩ true false (some (3, 0)),
        RawFile.mk ⟨["r", "link.txt"]⟩ true true (some (5, 0))]
      ⟨["r", "a.txt"]⟩ 3 0).2.1 rfl⟩

/-- C4: `load_cache` after `save_cache` reproduces the confirmed groups,
the metadata list and the fingerprint map exactly, for any scan result
whose paths are well formed (non-empty, no `/` inside a component) - as
every path from a real directory walk is. -/
theorem C4_cache_round_trip (d : CacheData)
    (h1 : ∀ g ∈ d.confirmed, ∀ p ∈ g, wfPath p)
    (h2 : ∀ e ∈ d.metadata, wfPath e.1)
    (h3 : ∀ hf ∈ d.hashes, ∀ p ∈ hf.2, wfPath p) :
    load_cache (save_cache d) = d := by
  obtain ⟨cs, md, hs⟩ := d
  show CacheData.mk
    ((cs.map (fun g => g.map pathToStr)).map (fun g => g.map strToPath))
    ((md.map (fun e => (pathToStr e.1, e.2.1, e.2.2))).map
      (fun e => (strToPath e.1, e.2.1, e.2.2)))
    ((hs.map (fun hf => (hf.1, hf.2.map pathToStr))).map
      (fun hf => (hf.1, hf.2.map strToPath))) = CacheData.mk cs md hs
  rw [map_group_round cs h1, map_md_round md h2, map_hash_round hs h3]

/-- C4 witness: the round trip on a concrete one-group, one-entry,
one-fingerprint scan result. -/
theorem C4_cache_round_trip_witness :
    load_cache (save_cache (CacheData.mk [[FPath.mk ["a", "b.txt"]]]
      [(FPath.mk ["a", "b.txt"], 3, 7)]
      [([1, 2], [FPath.mk ["a", "b.txt"]])])) =
    CacheData.mk [[FPath.mk ["a", "b.txt"]]]
      [(FPath.mk ["a", "b.txt"], 3, 7)]
      [([1, 2], [FPath.mk ["a", "b.txt"]])] :=
  C4_cache_round_trip _ (by decide) (by decide) (by decide)

/-- C3: with an existing cache and no force-rescan, the sample checked has
exactly `max(1, int(0.10 * len(metadata)))` entries; the cached data is used
as-is iff every sampled entry passes the re-stat check, and the cache is
deleted and fully rescanned iff some sampled entry fails it; an entry fails
exactly when its path is missing or inaccessible, its current size differs,
or its mtime moved by more than one second; an unparsable cache file is also
deleted and rescanned, and a missing cache or a force-rescan scans without
deleting. -/
theorem C3_cache_staleness (parsed : Option CacheData) (d : CacheData)
    (stat : FPath → Option (Nat × Int)) (sample : List (FPath × Nat × Int))
    (hp : parsed = some d)
    (hlen : sample.length = num_to_check d.metadata.length)
    (hsub : ∀ e ∈ sample, e ∈ d.metadata) :
    num_to_check d.metadata.length = max 1 (d.metadata.length / 10) ∧
    (cacheDecision true false parsed stat sample = CacheUse.use d ↔
      ∀ e ∈ sample, entryConsistent stat e = true) ∧
    (cacheDecision true false parsed stat sample = CacheUse.rescanDeleted ↔
      ∃ e ∈ sample, entryConsistent stat e = false) ∧
    (∀ e ∈ sample, (entryConsistent stat e = false ↔
      stat e.1 = none ∨
        ∃ sz mt, stat e.1 = some (sz, mt) ∧
          (sz ≠ e.2.1 ∨ 1 < (mt - e.2.2).natAbs))) ∧
    cacheDecision true false none stat sample = CacheUse.rescanDeleted ∧
    cacheDecision false false parsed stat sample = CacheUse.rescanNoCache ∧
    cacheDecision true true parsed stat sample = CacheUse.rescanNoCache := by
  subst hp
  have hdec : cacheDecision true false (some d) stat sample =
      if checkLoop stat sample then CacheUse.use d else CacheUse.rescanDeleted :=
    rfl
  refine ⟨rfl, ?_, ?_, ?_, rfl, rfl, rfl⟩
  · rw [hdec, ← checkLoop_eq_all]
    by_cases hc : checkLoop stat sample = true
    · rw [if_pos hc]
      constructor
      · intro h2
        exact hc
      · intro h2
        rfl
    · rw [if_neg hc]
      constructor
      · intro h2
        exact absurd h2 (by simp)
      · intro h2
        exact absurd h2 hc
  · rw [hdec]
    by_cases hc : checkLoop stat sample = true
    · rw [if_pos hc]
      constructor
      · intro h2
        exact absurd h2 (by simp)
      · rintro ⟨e, he, hfail⟩
        have := (checkLoop_eq_all stat sample).mp hc e he
        rw [this] at hfail
        exact absurd hfail (by simp)
    · rw [if_neg hc]
      constructor
      · intro h2
        have h3 : ¬ ∀ e ∈ sample, entryConsistent stat e = true :=
          fun ha => hc ((checkLoop_eq_all stat sample).mpr ha)
        push_neg at h3
        obtain ⟨e, he, hne⟩ := h3
        exact ⟨e, he, Bool.eq_false_iff.mpr hne⟩
      · intro h2
        rfl
  · intro e he
    exact entryConsistent_false_iff stat e

/-- C3 witness: the staleness protocol applied to a concrete one-entry
cache whose single sampled entry re-stats consistently, so the cached data
is used. -/
theorem C3_cache_staleness_witness :
    [(FPath.mk ["a"], 3, (0 : Int))].length =
      num_to_check (CacheData.mk [] [(FPath.mk ["a"], 3, 0)] []).metadata.length ∧
    cacheDecision true false (some (CacheData.mk [] [(FPath.mk ["a"], 3, 0)] []))
      (fun q => if q = FPath.mk ["a"] then some (3, 0) else none)
      [(FPath.mk ["a"], 3, 0)] =
      CacheUse.use (CacheData.mk [] [(FPath.mk ["a"], 3, 0)] []) :=
  ⟨by decide,
    (C3_cache_staleness (some (CacheData.mk [] [(FPath.mk ["a"], 3, 0)] []))
      (CacheData.mk [] [(FPath.mk ["a"], 3, 0)] [])
      (fun q => if q = FPath.mk ["a"] then some (3, 0) else none)
      [(FPath.mk ["a"], 3, 0)] rfl (by decide) (by decide)).2.1.mpr (by decide)⟩

/-- C2 counterexample: the destination exists with differing bytes, but the
first suffixed candidate `f_1.txt` also exists and happens to be identical
to the source, so the conflict loop returns success without copying
anything: the filesystem is returned unchanged, and no new destination name
receives the source.  The claim that differing bytes always lead to a copy
at the first free suffixed name is therefore too strong. -/
theorem C2_copy_conflict_counterexample :
    fsLookup [(FPath.mk ["s", "f.txt"], [2]), (FPath.mk ["d", "f.txt"], [1]),
        (FPath.mk ["d", "f_1.txt"], [2])] (FPath.mk ["d", "f.txt"]) =
      some [1] ∧
    ([2] : List Nat) ≠ [1] ∧
    perform_single_copy [(FPath.mk ["s", "f.txt"], [2]),
        (FPath.mk ["d", "f.txt"], [1]), (FPath.mk ["d", "f_1.txt"], [2])]
      (FPath.mk ["s", "f.txt"]) (FPath.mk ["d", "f.txt"]) false =
      ([(FPath.mk ["s", "f.txt"], [2]), (FPath.mk ["d", "f.txt"], [1]),
        (FPath.mk ["d", "f_1.txt"], [2])], CopyRes.success) := by
  decide

/-- C2 (amended): for a readable, non-empty source, when the destination
base name exists: with skip-existing the task succeeds with no change; when
the existing destination is byte-identical to the source the task is a
no-op success; and when every earlier candidate (the base, then
`stem_1`, `stem_2`, ...) exists with differing bytes up to the first free
candidate, the source is copied to that first free suffixed name and the
original destination's content is untouched.  (If some intermediate
suffixed candidate is identical to the source, the loop instead stops there
with a no-op success - the counterexample.)  Missing-source and 0-byte
failures are checked before all of this. -/
theorem C2_copy_conflict (fs : List (FPath × List Nat)) (srcP base : FPath)
    (srcC : List Nat) (hsrc : fsLookup fs srcP = some srcC) (hnz : srcC ≠ []) :
    ((fsLookup fs base).isSome = true →
      perform_single_copy fs srcP base true = (fs, CopyRes.success)) ∧
    (fsLookup fs base = some srcC →
      perform_single_copy fs srcP base false = (fs, CopyRes.success)) ∧
    (∀ k, 0 < k → k ≤ fs.length →
      (∀ j, j < k →
        ∃ cj, fsLookup fs (candidate base j) = some cj ∧ cj ≠ srcC) →
      fsLookup fs (candidate base k) = none →
      perform_single_copy fs srcP base false =
        (fs ++ [(candidate base k, srcC)], CopyRes.success) ∧
      fsLookup (fs ++ [(candidate base k, srcC)]) base = fsLookup fs base) := by
  have hlen : ¬ srcC.length = 0 := fun h => hnz (List.length_eq_zero.mp h)
  have hbody : ∀ sk : Bool, perform_single_copy fs srcP base sk =
      (if sk && (fsLookup fs base).isSome then (fs, CopyRes.success)
       else match copyLoop fs srcC base (fs.length + 1) 0 with
         | (fs2, some r) => (fs2, r)
         | (fs2, none) => (fs2, CopyRes.failure "unreachable")) := by
    intro sk
    unfold perform_single_copy
    rw [hsrc]
    show (if srcC.length = 0 then (fs, CopyRes.failure "Skipped: 0-byte file.")
      else if sk && (fsLookup fs base).isSome then (fs, CopyRes.success)
      else match copyLoop fs srcC base (fs.length + 1) 0 with
        | (fs2, some r) => (fs2, r)
        | (fs2, none) => (fs2, CopyRes.failure "unreachable")) = _
    rw [if_neg hlen]
  refine ⟨?_, ?_, ?_⟩
  · intro hsome
    rw [hbody true, if_pos (by rw [hsome]; rfl)]
  · intro hbase
    rw [hbody false, if_neg (by simp)]
    have h0 : copyLoop fs srcC base (fs.length + 1) 0 =
        (fs, some CopyRes.success) := by
      simp only [copyLoop]
      have hc0 : candidate base 0 = base := rfl
      rw [hc0, hbase]
      show (if files_are_identical srcC srcC = true then
          (fs, some CopyRes.success)
        else copyLoop fs srcC base fs.length 1) = _
      rw [if_pos (by unfold files_are_identical; exact beq_self_eq_true srcC)]
    rw [h0]
  · intro k hk0 hklen hj hfree
    have hloop := copyLoop_spec srcC base (fs.length + 1) 0 k fs (by omega)
      (by omega) (fun j h1 h2 => hj j h2) hfree
    constructor
    · rw [hbody false, if_neg (by simp), hloop]
    · obtain ⟨c0, hc0, -⟩ := hj 0 hk0
      have hb0 : candidate base 0 = base := rfl
      rw [hb0] at hc0
      exact fsLookup_append_of_isSome fs _ base (by rw [hc0]; rfl)

/-- C2 witness: a concrete conflict where the destination exists with
differing bytes and the first suffixed candidate is free, so the copy goes
to `f_1.txt` and the original destination keeps its bytes. -/
theorem C2_copy_conflict_witness :
    perform_single_copy [(FPath.mk ["s", "f.txt"], [2]),
        (FPath.mk ["d", "f.txt"], [1])]
      (FPath.mk ["s", "f.txt"]) (FPath.mk ["d", "f.txt"]) false =
      ([(FPath.mk ["s", "f.txt"], [2]), (FPath.mk ["d", "f.txt"], [1])] ++
        [(candidate (FPath.mk ["d", "f.txt"]) 1, [2])], CopyRes.success) ∧
    fsLookup ([(FPath.mk ["s", "f.txt"], [2]), (FPath.mk ["d", "f.txt"], [1])] ++
        [(candidate (FPath.mk ["d", "f.txt"]) 1, [2])]) (FPath.mk ["d", "f.txt"]) =
      fsLookup [(FPath.mk ["s", "f.txt"], [2]), (FPath.mk ["d", "f.txt"], [1])]
        (FPath.mk ["d", "f.txt"]) :=
  (C2_copy_conflict [(FPath.mk ["s", "f.txt"], [2]),
      (FPath.mk ["d", "f.txt"], [1])]
    (FPath.mk ["s", "f.txt"]) (FPath.mk ["d", "f.txt"]) [2] rfl
    (by decide)).2.2 1 (by decide) (by decide)
    (fun j hj => by
      have hj0 : j = 0 := by omega
      subst hj0
      exact ⟨[1], by decide, by decide⟩)
    (by decide)

/-- C7: for distinct folders `X`, `Y` that both carry a (necessarily
non-empty) content-signature set, the analyzer emits an `Exact Duplicate`
record for the pair exactly when the two signature sets are equal, and a
`Subset` record with subset `X` and superset `Y` exactly when `X`'s set is
a strict subset of `Y`'s; every folder mentioned in any emitted record
carries a non-empty signature set (so folders with no hashed files appear
in no relationship). -/
theorem C7_folder_relationships (all_files : List SFile) (X Y : FPath)
    (sx sy : Finset (List Nat))
    (hX : (X, sx) ∈ folder_content_signatures all_files)
    (hY : (Y, sy) ∈ folder_content_signatures all_files)
    (hXY : X ≠ Y) :
    ((∃ a b, FolderRel.exactDup a b ∈ analyze_folder_rels all_files ∧
        ((a = X ∧ b = Y) ∨ (a = Y ∧ b = X))) ↔ sx = sy) ∧
    (FolderRel.subset X Y ∈ analyze_folder_rels all_files ↔ sx ⊂ sy) ∧
    (∀ r ∈ analyze_folder_rels all_files, ∀ F, relMentions r F →
      ∃ s, (F, s) ∈ folder_content_signatures all_files ∧ s ≠ ∅) := by
  have hnd := sigs_nodup all_files
  have hvals := sigs_vals all_files
  have hsx : sigLookup (folder_content_signatures all_files) X = sx :=
    sigLookup_eq _ X sx hnd hX
  have hsy : sigLookup (folder_content_signatures all_files) Y = sy :=
    sigLookup_eq _ Y sy hnd hY
  have hsxne : sx ≠ ∅ := hvals (X, sx) hX
  have hsyne : sy ≠ ∅ := hvals (Y, sy) hY
  have hXk : X ∈ (folder_content_signatures all_files).map Prod.fst :=
    List.mem_map.mpr ⟨(X, sx), hX, rfl⟩
  have hYk : Y ∈ (folder_content_signatures all_files).map Prod.fst :=
    List.mem_map.mpr ⟨(Y, sy), hY, rfl⟩
  have hmem : ∀ r : FolderRel, r ∈ analyze_folder_rels all_files ↔
      ∃ ab ∈ combPairs ((folder_content_signatures all_files).map Prod.fst),
        pairRel (folder_content_signatures all_files) ab.1 ab.2 = some r := by
    intro r
    unfold analyze_folder_rels
    exact List.mem_filterMap
  refine ⟨?_, ?_, ?_⟩
  · constructor
    · rintro ⟨a, b, hr, hor⟩
      obtain ⟨ab, hab, heq⟩ := (hmem _).mp hr
      obtain ⟨h1, h2, -, -, h5⟩ :=
        (pairRel_exact_iff _ ab.1 ab.2 a b).mp heq
      rw [h1, h2] at h5
      rcases hor with ⟨ha2, hb2⟩ | ⟨ha2, hb2⟩
      · rw [ha2, hb2, hsx, hsy] at h5
        exact h5
      · rw [ha2, hb2, hsy, hsx] at h5
        exact h5.symm
    · intro heq
      rcases exists_combPair hXk hYk hXY with hp | hp
      · refine ⟨X, Y, (hmem _).mpr ⟨(X, Y), hp, ?_⟩, Or.inl ⟨rfl, rfl⟩⟩
        show pairRel (folder_content_signatures all_files) X Y =
          some (FolderRel.exactDup X Y)
        rw [pairRel_exact_iff]
        exact ⟨rfl, rfl, by rw [hsx]; exact hsxne, by rw [hsy]; exact hsyne,
          by rw [hsx, hsy]; exact heq⟩
      · refine ⟨Y, X, (hmem _).mpr ⟨(Y, X), hp, ?_⟩, Or.inr ⟨rfl, rfl⟩⟩
        show pairRel (folder_content_signatures all_files) Y X =
          some (FolderRel.exactDup Y X)
        rw [pairRel_exact_iff]
        exact ⟨rfl, rfl, by rw [hsy]; exact hsyne, by rw [hsx]; exact hsxne,
          by rw [hsy, hsx]; exact heq.symm⟩
  · constructor
    · intro hr
      obtain ⟨ab, hab, heqr⟩ := (hmem _).mp hr
      obtain ⟨-, -, hne3, hca⟩ :=
        (pairRel_subset_iff _ ab.1 ab.2 X Y).mp heqr
      rcases hca with ⟨h1, h2, h3⟩ | ⟨h1, h2, h3, h4⟩
      · rw [h1, h2, hsx, hsy] at h3
        rw [h1, h2, hsx, hsy] at hne3
        exact Finset.ssubset_iff_subset_ne.mpr ⟨h3, hne3⟩
      · rw [h2, h1, hsy, hsx] at h4
        rw [h2, h1, hsy, hsx] at hne3
        exact Finset.ssubset_iff_subset_ne.mpr ⟨h4, fun hc => hne3 hc.symm⟩
    · intro hss
      obtain ⟨hsub, hne⟩ := Finset.ssubset_iff_subset_ne.mp hss
      rcases exists_combPair hXk hYk hXY with hp | hp
      · refine (hmem _).mpr ⟨(X, Y), hp, ?_⟩
        show pairRel (folder_content_signatures all_files) X Y =
          some (FolderRel.subset X Y)
        rw [pairRel_subset_iff]
        exact ⟨by rw [hsx]; exact hsxne, by rw [hsy]; exact hsyne,
          by rw [hsx, hsy]; exact hne,
          Or.inl ⟨rfl, rfl, by rw [hsx, hsy]; exact hsub⟩⟩
      · refine (hmem _).mpr ⟨(Y, X), hp, ?_⟩
        show pairRel (folder_content_signatures all_files) Y X =
          some (FolderRel.subset X Y)
        rw [pairRel_subset_iff]
        refine ⟨by rw [hsy]; exact hsyne, by rw [hsx]; exact hsxne,
          by rw [hsy, hsx]; exact fun hc => hne hc.symm,
          Or.inr ⟨rfl, rfl, ?_, by rw [hsx, hsy]; exact hsub⟩⟩
        rw [hsy, hsx]
        intro hc
        exact hne (Finset.Subset.antisymm hsub hc)
  · intro r hr F hmf
    obtain ⟨ab, hab, heqr⟩ := (hmem _).mp hr
    obtain ⟨a, b⟩ := ab
    have habk := mem_combPairs hab
    have hFab := pairRel_mentions _ a b r heqr F hmf
    rcases hFab with rfl | rfl
    · obtain ⟨s, hs⟩ := key_has_entry _ _ habk.1
      exact ⟨s, hs, hvals _ hs⟩
    · obtain ⟨s, hs⟩ := key_has_entry _ _ habk.2
      exact ⟨s, hs, hvals _ hs⟩

/-- C7 witness: a concrete tree where folder `C` holds one file whose
content also appears in folder `A` (which has one more distinct file), so
the analyzer emits `Subset(C, A)`, proved via the strict inclusion of the
signature sets. -/
theorem C7_folder_relationships_witness :
    (FPath.mk ["C"], ({[1]} : Finset (List Nat))) ∈
      folder_content_signatures
        [⟨⟨["A", "a1"]⟩, [1], 0⟩, ⟨⟨["A", "a2"]⟩, [2], 0⟩,
          ⟨⟨["C", "c1"]⟩, [1], 0⟩] ∧
    FolderRel.subset (FPath.mk ["C"]) (FPath.mk ["A"]) ∈
      analyze_folder_rels
        [⟨⟨["A", "a1"]⟩, [1], 0⟩, ⟨⟨["A", "a2"]⟩, [2], 0⟩,
          ⟨⟨["C", "c1"]⟩, [1], 0⟩] :=
  ⟨by decide,
    (C7_folder_relationships
      [⟨⟨["A", "a1"]⟩, [1], 0⟩, ⟨⟨["A", "a2"]⟩, [2], 0⟩,
        ⟨⟨["C", "c1"]⟩, [1], 0⟩]
      (FPath.mk ["C"]) (FPath.mk ["A"]) {[1]} ({[1], [2]} : Finset (List Nat))
      (by decide) (by decide) (by decide)).2.1.mpr (by decide)⟩
